import Mathlib

/-!
Verification of the osm_relation_ways route tooling.

This file gives a shallow embedding, over exact rationals, of the core
algorithms of the repository (src/locate_on_route.py,
src/osm_relation_ways.py, src/route_websocket_tracker.py) and proves the
specified properties about them.

Modelling conventions, used throughout:

* Coordinates are pairs of rationals (lon, lat); Python floats are modelled
  by the field of rationals.
* The transcendental helpers haversine_distance and calculate_bearing
  (spherical trigonometry over floats, not expressible in rational
  arithmetic) are passed to each embedded algorithm as an explicit function
  parameter; every theorem below is proved for an arbitrary such function,
  so it holds in particular for the real haversine/bearing functions.
* Point-to-segment planar distances are compared through their squares.
  The source compares nonnegative Euclidean distances, and squaring is
  strictly monotone on nonnegative reals, so every comparison has the same
  outcome; the one place a non-squared distance is reported
  (distance_to_route = min_distance * 111000) is carried as its square.
* Python dicts keeping insertion order are modelled by association lists,
  Python sets of used way ids by lists with pairwise-distinct additions,
  and Python's stable sorted(...) by a stable insertion sort.
* While-loops that terminate because each iteration consumes an unused way
  (or strictly advances an index) are modelled by structural recursion on
  a fuel argument chosen at the call site to dominate the iteration count,
  so that all definitions compute by kernel reduction.
-/

namespace OsmWays

/-- A coordinate pair (lon, lat), as stored in the repository's way data. -/
abbrev Point : Type := ℚ × ℚ

/-! ## Projection of a location onto the route polyline

Embedding of find_location_on_route (src/locate_on_route.py lines 242-309;
duplicated as RouteTracker.find_location_on_route in
src/route_websocket_tracker.py lines 284-351).
-/

/-- Squared planar distance between two (lon, lat) points.  The source
computes the Euclidean distance via shapely; comparisons of nonnegative
distances and comparisons of their squares agree. -/
def sqDist (p q : Point) : ℚ :=
  (p.1 - q.1) ^ 2 + (p.2 - q.2) ^ 2

/-- Clamp a parameter to the interval [0, 1], as shapely's projection onto a
bounded segment does (spec section 9: implementations must clamp t). -/
def clamp01 (t : ℚ) : ℚ :=
  if t < 0 then 0 else if 1 < t then 1 else t

/-- The clamped normalized parameter of the planar projection of p onto the
segment from a to b: the value shapely returns for
segment.project(nearest_point, normalized=True).  Division by zero (a
degenerate segment, which build_route_line's deduplication of consecutive
equal vertices prevents) yields 0 under the rational convention x / 0 = 0,
placing the projection at the segment's first endpoint. -/
def projParam (a b p : Point) : ℚ :=
  clamp01 (((p.1 - a.1) * (b.1 - a.1) + (p.2 - a.2) * (b.2 - a.2)) /
    ((b.1 - a.1) ^ 2 + (b.2 - a.2) ^ 2))

/-- The planar point of the segment from a to b closest to p: the value of
nearest_points(location_point, segment)[1] in the source. -/
def closestOnSeg (a b p : Point) : Point :=
  (a.1 + projParam a b p * (b.1 - a.1), a.2 + projParam a b p * (b.2 - a.2))

/-- Result dictionary of find_location_on_route.  distanceToRouteSq carries
the square of the source's distance_to_route = min_distance * 111000 (see
the file comment on squared distances); errFlag models the presence of the
fallback dictionary's error entry. -/
structure LocResult where
  nearestPoint : Point
  distanceFromStart : ℚ
  distanceToRouteSq : ℚ
  errFlag : Bool
deriving DecidableEq, Repr

/-- The per-segment loop of find_location_on_route: walks consecutive
coordinate pairs carrying the running haversine total and the best
(squared distance, nearest point, distance from start) triple so far; the
comparison dist < min_distance of the source is the squared comparison
here.  hav is the haversine_distance function. -/
def flrAux (hav : Point → Point → ℚ) (loc : Point) :
    List Point → ℚ → Option (ℚ × Point × ℚ) → Option (ℚ × Point × ℚ)
  | p :: q :: rest, total, best =>
      let segLen := hav p q
      let np := closestOnSeg p q loc
      let dSq := sqDist loc np
      let cand := (dSq, np, total + projParam p q loc * segLen)
      let best2 := match best with
        | none => some cand
        | some b => if dSq < b.1 then some cand else some b
      flrAux hav loc (q :: rest) (total + segLen) best2
  | _, _, best => best

/-- find_location_on_route: project a location onto the route polyline.
When the loop finds no segment (fewer than 2 coordinates leave
nearest_point as None, raising ValueError), the source's except-branch
returns the fallback dictionary with the query location itself, zero
distances and an error entry; no exception escapes. -/
def find_location_on_route (hav : Point → Point → ℚ) (coords : List Point)
    (loc : Point) : LocResult :=
  match flrAux hav loc coords 0 none with
  | some (m, np, dfs) => ⟨np, dfs, m * 111000 ^ 2, false⟩
  | none => ⟨loc, 0, 0, true⟩

/-- The list of consecutive-vertex segments of a polyline. -/
def segPairs (coords : List Point) : List (Point × Point) :=
  coords.zip coords.tail

/-- Cumulative haversine length of the first i segments of the polyline. -/
def cumLen (hav : Point → Point → ℚ) : List Point → ℕ → ℚ
  | p :: q :: rest, i + 1 => hav p q + cumLen hav (q :: rest) i
  | _, _ => 0

/-- Squared planar distance from loc to its closest point on a segment. -/
def segSqDist (loc : Point) (pq : Point × Point) : ℚ :=
  sqDist loc (closestOnSeg pq.1 pq.2 loc)

/-- The best-so-far update of the projection loop, as a function: keep the
previous best unless the new squared distance is strictly smaller (the
source's dist < min_distance with min_distance starting at infinity). -/
def flrStep (best : Option (ℚ × Point × ℚ)) (c : ℚ × Point × ℚ) :
    Option (ℚ × Point × ℚ) :=
  match best with
  | none => some c
  | some b => if c.1 < b.1 then some c else some b

/-- The per-segment candidate triples (squared distance, nearest point,
distance from start) that the projection loop folds over, with the
running haversine total threaded through. -/
def candList (hav : Point → Point → ℚ) (loc : Point) :
    List Point → ℚ → List (ℚ × Point × ℚ)
  | p :: q :: rest, total =>
      (sqDist loc (closestOnSeg p q loc), closestOnSeg p q loc,
        total + projParam p q loc * hav p q) ::
        candList hav loc (q :: rest) (total + hav p q)
  | _, _ => []

/-! ## Previous/next stop queries

Embedding of the scan part of find_nearest_stops
(src/locate_on_route.py lines 369-393; duplicated as
RouteTracker.find_nearest_stops in src/route_websocket_tracker.py lines
415-442).  The entries of the stops_with_distance list are modelled by
their id and distance_from_start, the only fields the scans consult.
-/

/-- Python's abs on a float, written out so that it computes by kernel
reduction (it agrees with the absolute value, see qabs_eq_abs). -/
def qabs (x : ℚ) : ℚ :=
  if x < 0 then -x else x

/-- A stop together with its distance from the start of the route, as in
the source's stops_with_distance list. -/
structure StopD where
  id : ℕ
  dist : ℚ
deriving DecidableEq, Repr

/-- Stable insertion into a list sorted by the relation keep, where
keep y x means y may stay in front of x; an incoming element passes every
element it may stay behind, so equal keys retain their original order,
matching Python's stable sorted. -/
def insertKeep (keep : α → α → Bool) (x : α) : List α → List α
  | [] => [x]
  | y :: ys => if keep y x then y :: insertKeep keep x ys else x :: y :: ys

/-- Stable sort with respect to keep (see insertKeep), modelling Python's
sorted(..., key=...) including its stability. -/
def sortKeep (keep : α → α → Bool) (l : List α) : List α :=
  l.foldl (fun acc x => insertKeep keep x acc) []

/-- Sorting of stops by distance_from_start, as in
sorted(stops_with_distance, key=lambda x: x["distance_from_start"]). -/
def sortStops (stops : List StopD) : List StopD :=
  sortKeep (fun a b => decide (a.dist ≤ b.dist)) stops

/-- The source's previous-stop condition at cursor distance d:
stop["distance_from_start"] <= current_distance or
abs(stop["distance_from_start"] - current_distance) < 1.0. -/
def prevCond (d : ℚ) (s : StopD) : Bool :=
  decide (s.dist ≤ d) || decide (qabs (s.dist - d) < 1)

/-- The source's next-stop condition: stop["distance_from_start"] >
current_distance. -/
def nextCond (d : ℚ) (s : StopD) : Bool :=
  decide (d < s.dist)

/-- find_nearest_stops: sort the stops by distance from start, then find
the previous stop by a linear reverse scan with prevCond and the next stop
by a forward scan with nextCond (the reverse index loop of the source is
find? on the reversed sorted list). -/
def find_nearest_stops (stops : List StopD) (d : ℚ) :
    Option StopD × Option StopD :=
  let sorted := sortStops stops
  (sorted.reverse.find? (prevCond d), sorted.find? (nextCond d))

/-! ## Ways and ordered ways

The way dictionaries of the repository: raw ways as produced by
extract_ways_and_stops (src/osm_relation_ways.py lines 325-347, always
carrying id, nodes, node_ids, start_node, end_node and at least 2 resolved
nodes) and ordered ways as produced by arrange_ways_bidirectionally, which
additionally may carry the reversed flag (its absence is modelled by
revFlag = false).  Node and way identifiers are opaque; they are modelled
by naturals.
-/

/-- A raw way of the relation. -/
structure Way where
  id : ℕ
  nodes : List Point
  nodeIds : List ℕ
  startNode : ℕ
  endNode : ℕ
deriving DecidableEq, Repr

/-- An ordered (possibly reversed) way, as serialized to
ways_ordered.json; revFlag models the optional reversed key. -/
structure OWay where
  id : ℕ
  nodes : List Point
  nodeIds : List ℕ
  startNode : ℕ
  endNode : ℕ
  revFlag : Bool
deriving DecidableEq, Repr

/-- A raw way viewed as an ordered way without a reversed key. -/
def wayToOWay (w : Way) : OWay :=
  ⟨w.id, w.nodes, w.nodeIds, w.startNode, w.endNode, false⟩

/-! ## Segment lookup by distance from start

Embedding of find_segment_index (src/locate_on_route.py lines 408-509;
duplicated as RouteTracker.find_segment_index in
src/route_websocket_tracker.py lines 459-560).
-/

/-- Sum of hav over the consecutive node pairs of a way: the inner
segment_length accumulation of find_segment_index. -/
def wayLength (hav : Point → Point → ℚ) (w : OWay) : ℚ :=
  (segPairs w.nodes).foldl (fun acc pq => acc + hav pq.1 pq.2) 0

/-- The dictionary find_segment_index returns; warning models the presence
of the clamp warning entry. -/
structure SegmentInfo where
  segmentIndex : ℕ
  segmentId : ℕ
  distanceInSegment : ℚ
  segmentPercentage : ℚ
  segmentLength : ℚ
  startNode : ℕ
  endNode : ℕ
  warning : Bool
deriving DecidableEq, Repr

/-- The in-range record returned when a way's cumulative interval contains
the queried distance. -/
def inRangeInfo (hav : Point → Point → ℚ) (i : ℕ) (w : OWay) (cum d : ℚ) :
    SegmentInfo :=
  let len := wayLength hav w
  ⟨i, w.id, d - cum, if 0 < len then (d - cum) / len * 100 else 0,
    len, w.startNode, w.endNode, false⟩

/-- The main loop of find_segment_index: ways with fewer than 2 nodes are
skipped (contributing no length), otherwise the way is returned as soon as
cumulative <= distance <= cumulative + length.  Returns the found record,
if any, together with the final cumulative distance. -/
def fsiLoop (hav : Point → Point → ℚ) (d : ℚ) :
    List OWay → ℕ → ℚ → Option SegmentInfo × ℚ
  | [], _, cum => (none, cum)
  | w :: rest, i, cum =>
      if w.nodes.length < 2 then fsiLoop hav d rest (i + 1) cum
      else
        let len := wayLength hav w
        if cum ≤ d ∧ d ≤ cum + len then (some (inRangeInfo hav i w cum d), cum)
        else fsiLoop hav d rest (i + 1) (cum + len)

/-- find_segment_index: locate the way whose cumulative interval contains
the queried distance; past the total, clamp to the last way with
percentage 100 and a warning; below zero, clamp to the first way with
percentage 0, offset 0 and a warning; with no ways at all (or, see the
theorems, a distance of 0 on a route all of whose ways are degenerate)
return none. -/
def find_segment_index (hav : Point → Point → ℚ) (routeData : List OWay)
    (d : ℚ) : Option SegmentInfo :=
  match fsiLoop hav d routeData 0 0 with
  | (some r, _) => some r
  | (none, cum) =>
      match routeData.head?, routeData.getLast? with
      | some fw, some lw =>
          if cum < d then
            let llen := wayLength hav lw
            some ⟨routeData.length - 1, lw.id, llen, 100, llen,
              lw.startNode, lw.endNode, true⟩
          else if d < 0 then
            some ⟨0, fw.id, 0, 0, wayLength hav fw,
              fw.startNode, fw.endNode, true⟩
          else none
      | _, _ => none

/-- Total route length as accumulated by find_segment_index: ways with
fewer than 2 nodes contribute nothing. -/
def fsiTotal (hav : Point → Point → ℚ) : List OWay → ℚ
  | [] => 0
  | w :: rest =>
      (if w.nodes.length < 2 then 0 else wayLength hav w) + fsiTotal hav rest

/-! ## Total route length from the summary artifact

Embedding of get_route_total_length (src/locate_on_route.py lines 511-532;
duplicated in src/route_websocket_tracker.py lines 562-583) and of the
selection in locate_on_route / RouteTracker.init
(src/locate_on_route.py line 551, src/route_websocket_tracker.py line 38):
total_route_length = summary_length if summary_length else
calculated_length.  A summary line is modelled by whether it contains the
marker Calkowita dlugosc trasy: and by the outcome of float() on the first
space-separated token after the colon (the string splitting itself is a
faithful but uninteresting detail; only presence and parse outcome feed
the algorithm).
-/

/-- One line of summary.txt, reduced to the two facts the reader uses. -/
structure SummaryLine where
  hasMarker : Bool
  value : Option ℚ
deriving DecidableEq, Repr

/-- get_route_total_length: the first marker line whose value parses wins;
a marker line that fails to parse falls through to later lines; none if no
line yields a value. -/
def get_route_total_length : List SummaryLine → Option ℚ
  | [] => none
  | l :: ls =>
      if l.hasMarker then
        match l.value with
        | some v => some v
        | none => get_route_total_length ls
      else get_route_total_length ls

/-- total_route_length = summary_length if summary_length else
calculated_length: Python truthiness makes both None and 0.0 fall back to
the locally computed length. -/
def selectTotalRouteLength (summary : Option ℚ) (calculated : ℚ) : ℚ :=
  match summary with
  | some v => if v = 0 then calculated else v
  | none => calculated

/-- progress_percentage = distance_from_start / total_route_length * 100
if total_route_length > 0 else 0 (src/locate_on_route.py line 579,
src/route_websocket_tracker.py line 614). -/
def progressPercentage (distFromStart total : ℚ) : ℚ :=
  if 0 < total then distFromStart / total * 100 else 0

/-! ## Turn detection

Embedding of the turn_points scan of generate_gps_directions
(src/osm_relation_ways.py lines 730-783; duplicated in
RouteTracker.generate_navigation_directions,
src/route_websocket_tracker.py lines 693-746).  The scan parameters are
the source's constants step_size = 10, lookback = 10, lookahead = 20,
min_turn_threshold = 40.  The bearing function (calculate_bearing, a
transcendental atan2 formula) is a parameter.
-/

/-- Python's float modulo: x % m = x - m * floor(x / m). -/
def qmod (x m : ℚ) : ℚ :=
  x - m * (Rat.floor (x / m) : ℚ)

/-- The signed bearing delta (post - pre + 180) % 360 - 180. -/
def signedDelta (post pre : ℚ) : ℚ :=
  qmod (post - pre + 180) 360 - 180

/-- The turn_intensity prefix of the instruction: ostro (sharp), the empty
prefix (normal), or lekko (slight). -/
inductive TurnIntensity where
  | sharp
  | normal
  | slight
deriving DecidableEq, Repr

/-- The turn_direction of the instruction: w prawo (right) or w lewo
(left). -/
inductive TurnSide where
  | right
  | left
deriving DecidableEq, Repr

/-- One entry of the source's turn_points list; intensity and side are the
qualifiers interpolated into the instruction string. -/
structure TurnPoint where
  index : ℕ
  distance : ℚ
  bearingChange : ℚ
  preBearing : ℚ
  postBearing : ℚ
  intensity : TurnIntensity
  side : TurnSide
deriving DecidableEq, Repr

/-- The distance of a detected turn from the route start: the source sums
haversine_distance(route_points[j], route_points[j+1]) for j in range(i),
guarding j < len - 1; this is the fold over the first i consecutive pairs. -/
def cumDistAt (hav : Point → Point → ℚ) (pts : List Point) (i : ℕ) : ℚ :=
  ((segPairs pts).take i).foldl (fun acc pq => acc + hav pq.1 pq.2) 0

/-- One firing of the turn detector at index i. -/
def mkTurn (hav : Point → Point → ℚ) (pts : List Point) (i : ℕ)
    (pre post delta : ℚ) : TurnPoint :=
  ⟨i, cumDistAt hav pts i, delta, pre, post,
    if 100 < qabs delta then .sharp else if 60 < qabs delta then .normal
      else .slight,
    if 0 < delta then .right else .left⟩

/-- The while-loop of the turn scan: at index i (while i < len - 20),
compare the bearing over the 10 points behind with the bearing over the 20
points ahead; on a delta of at least 40 degrees record a turn and jump by
the lookahead of 20, else advance by the step of 10.  The fuel dominates
the iteration count (the index grows by at least 10 each iteration) and
only its sufficiency, proved below, matters. -/
def turnScan (bearing hav : Point → Point → ℚ) (pts : List Point) :
    ℕ → ℕ → List TurnPoint
  | 0, _ => []
  | fuel + 1, i =>
      if i < pts.length - 20 then
        let pre := bearing (pts.getD (i - 10) (0, 0)) (pts.getD i (0, 0))
        let post := bearing (pts.getD i (0, 0)) (pts.getD (i + 20) (0, 0))
        let delta := signedDelta post pre
        if 40 ≤ qabs delta then
          mkTurn hav pts i pre post delta ::
            turnScan bearing hav pts fuel (i + 20)
        else turnScan bearing hav pts fuel (i + 10)
      else []

/-- turn_points: the full scan starting at i = lookback = 10. -/
def turn_points (bearing hav : Point → Point → ℚ) (pts : List Point) :
    List TurnPoint :=
  turnScan bearing hav pts pts.length 10

/-! ## Change detection of the streaming tracker

Embedding of WebSocketTracker.handle_position_update
(src/route_websocket_tracker.py lines 1144-1174).  The result type of
RouteTracker.locate is abstracted by a type parameter; the locate call is
a function parameter and is modelled as always succeeding (its except
branch leaves the cached state unchanged exactly as the skip branch
does). -/

/-- The cached state of the WebSocket tracker: last processed position
(latitude, longitude), last locate result, last update wall-clock time. -/
structure TrackState (ρ : Type) where
  lastPosition : Option (ℚ × ℚ)
  lastResult : Option ρ
  lastUpdateTime : Option ℚ

/-- handle_position_update: on a present position, invoke locate iff the
coordinates changed (a missing previous position counts as changed) or the
update interval elapsed (a missing last update time counts as elapsed);
return the new state and whether locate was invoked. -/
def handle_position_update {ρ : Type} (interval : ℚ)
    (locate : ℚ × ℚ → ρ) (s : TrackState ρ) (position : Option (ℚ × ℚ))
    (now : ℚ) : TrackState ρ × Bool :=
  match position with
  | none => (s, false)
  | some p =>
      let isNewPosition : Bool :=
        match s.lastPosition with
        | none => true
        | some q => decide (p.1 ≠ q.1) || decide (p.2 ≠ q.2)
      let timeDue : Bool :=
        match s.lastUpdateTime with
        | none => true
        | some t => decide (interval ≤ now - t)
      if isNewPosition || timeDue then
        (⟨some p, some (locate p), some now⟩, true)
      else (s, false)

/-! ## The way stitcher

Embedding of arrange_ways_bidirectionally
(src/osm_relation_ways.py lines 351-645).  The RouteSegment helper class
is a way paired with an orientation flag; node_connections is an
association list preserving dict insertion order; used_way_ids is a list
to which only fresh ids are ever added, so its length is the set's
cardinality; way_map lookup takes the last way of a given id, as a dict
comprehension does.  The two greedy while-loops and the residual-chain
while-loop are run on fuel equal to the number of route ways, which
dominates their iteration counts since every iteration consumes at least
one unused way (lemmas walkWith_fuel_eq and residualChains_fuel_eq below
show the chosen fuel is in the stable region).
-/

/-- The RouteSegment helper: a way with its orientation flag. -/
structure RouteSegment where
  way : Way
  rev : Bool
deriving DecidableEq, Repr

/-- RouteSegment.start_node. -/
def segStart (s : RouteSegment) : ℕ :=
  if s.rev then s.way.endNode else s.way.startNode

/-- RouteSegment.end_node. -/
def segEnd (s : RouteSegment) : ℕ :=
  if s.rev then s.way.startNode else s.way.endNode

/-- RouteSegment.to_dict: the reversed flag materializes by swapping the
endpoint ids, reversing the node lists and recording reversed = True. -/
def segToDict (s : RouteSegment) : OWay :=
  if s.rev then
    ⟨s.way.id, s.way.nodes.reverse, s.way.nodeIds.reverse,
      s.way.endNode, s.way.startNode, true⟩
  else
    ⟨s.way.id, s.way.nodes, s.way.nodeIds,
      s.way.startNode, s.way.endNode, false⟩

/-- RouteSegment(s.way, not s.reversed), used when a chain is spliced in
reverse during consolidation. -/
def flipSeg (s : RouteSegment) : RouteSegment :=
  ⟨s.way, !s.rev⟩

/-- The global-flip mutation applied to an ordered way: swap the endpoint
ids, reverse the node lists and toggle the reversed flag (a missing flag
becomes True, i.e. !false). -/
def flipOWay (w : OWay) : OWay :=
  ⟨w.id, w.nodes.reverse, w.nodeIds.reverse, w.endNode, w.startNode,
    !w.revFlag⟩

/-- node_connections: a dict from node id to the list of incident way ids,
in insertion order. -/
abbrev NodeConn : Type := List (ℕ × List ℕ)

/-- Ensure a key is present (Python: if node not in node_connections:
node_connections[node] = []). -/
def ncEnsure (m : NodeConn) (k : ℕ) : NodeConn :=
  if m.any (fun e => e.1 == k) then m else m ++ [(k, [])]

/-- Append a way id to a key's list. -/
def ncAppend (m : NodeConn) (k v : ℕ) : NodeConn :=
  m.map (fun e => if e.1 == k then (e.1, e.2 ++ [v]) else e)

/-- Build node_connections from the route ways, in their order: both
endpoint keys are created first, then the way id is appended to each. -/
def buildNodeConnections (ways : List Way) : NodeConn :=
  ways.foldl
    (fun m w =>
      ncAppend (ncAppend (ncEnsure (ncEnsure m w.startNode) w.endNode)
        w.startNode w.id) w.endNode w.id)
    []

/-- node_connections.get(k, []). -/
def ncGet (m : NodeConn) (k : ℕ) : List ℕ :=
  ((m.find? (fun e => e.1 == k)).map Prod.snd).getD []

/-- The non-loop ways (start_node distinct from end_node), in input
order. -/
def routeWaysOf (raw : List Way) : List Way :=
  raw.filter (fun w => decide (w.startNode ≠ w.endNode))

/-- The self-loop ways (start_node equal to end_node), in input order. -/
def loopWaysOf (raw : List Way) : List Way :=
  raw.filter (fun w => decide (w.startNode = w.endNode))

/-- way_map[wid]: a dict comprehension keeps the last way of each id. -/
def wayLookup (ways : List Way) (wid : ℕ) : Option Way :=
  ways.reverse.find? (fun w => w.id == wid)

/-- The unused way ids incident to the current node. -/
def unusedAt (nc : NodeConn) (used : List ℕ) (cur : ℕ) : List ℕ :=
  (ncGet nc cur).filter (fun wid => decide (wid ∉ used))

/-- connecting_ways_original of the main walk: unused incident ways whose
start_node is the current node, kept in natural orientation. -/
def origCands (ways : List Way) (nc : NodeConn) (used : List ℕ)
    (cur : ℕ) : List RouteSegment :=
  (unusedAt nc used cur).filterMap (fun wid =>
    (wayLookup ways wid).bind (fun w =>
      if w.startNode == cur then some ⟨w, false⟩ else none))

/-- connecting_ways_reversed of the main walk: unused incident ways whose
end_node (but not start_node) is the current node, to be reversed. -/
def revCands (ways : List Way) (nc : NodeConn) (used : List ℕ)
    (cur : ℕ) : List RouteSegment :=
  (unusedAt nc used cur).filterMap (fun wid =>
    (wayLookup ways wid).bind (fun w =>
      if w.startNode == cur then none
      else if w.endNode == cur then some ⟨w, true⟩ else none))

/-- Next-segment selection of the main walk: the source prefers the first
natural-orientation candidate (prefer_original_orientation is always
True), then the first reversed candidate. -/
def selectNextMain (ways : List Way) (nc : NodeConn) (used : List ℕ)
    (cur : ℕ) : Option RouteSegment :=
  let preferOriginalOrientation := true
  let orig := origCands ways nc used cur
  let revd := revCands ways nc used cur
  if preferOriginalOrientation && !orig.isEmpty then orig.head?
  else if !revd.isEmpty then revd.head?
  else orig.head?

/-- connecting_ways of the residual growth loop: both orientations in a
single list, in incidence order. -/
def bothCands (ways : List Way) (nc : NodeConn) (used : List ℕ)
    (cur : ℕ) : List RouteSegment :=
  (unusedAt nc used cur).filterMap (fun wid =>
    (wayLookup ways wid).bind (fun w =>
      if w.startNode == cur then some ⟨w, false⟩
      else if w.endNode == cur then some ⟨w, true⟩ else none))

/-- Next-segment selection of the residual growth loop: the first
connecting way. -/
def selectNextResid (ways : List Way) (nc : NodeConn) (used : List ℕ)
    (cur : ℕ) : Option RouteSegment :=
  (bothCands ways nc used cur).head?

/-- The greedy oriented walk shared by the main loop and the residual
growth loop, over a selection function: append the selected segment, mark
its way used, move to its far endpoint, stop when nothing connects. -/
def walkWith (select : List ℕ → ℕ → Option RouteSegment) :
    ℕ → List ℕ → ℕ → List RouteSegment
  | 0, _, _ => []
  | fuel + 1, used, cur =>
      match select used cur with
      | none => []
      | some seg =>
          seg :: walkWith select fuel (seg.way.id :: used) (segEnd seg)

/-- Seed selection for a residual chain: first an unused way incident to
an original terminal node (recording whether it connects by its
start_node), else the first unused route way (not at an endpoint). -/
def pickSeed (ways : List Way) (nc : NodeConn) (endpoints : List ℕ)
    (used : List ℕ) : Option (Way × Bool) :=
  match endpoints.findSome? (fun node =>
      (ncGet nc node).findSome? (fun wid =>
        if wid ∈ used then none
        else (wayLookup ways wid).map (fun w => (w, w.startNode == node)))) with
  | some r => some r
  | none => (ways.find? (fun w => decide (w.id ∉ used))).map (fun w => (w, false))

/-- Orientation of a residual seed: at an endpoint keep the original
orientation; otherwise reverse exactly when more unused other ways meet
the start_node than the end_node (lookahead = 1). -/
def seedSegment (nc : NodeConn) (used : List ℕ) (w : Way) (atEp : Bool) :
    RouteSegment :=
  if atEp then ⟨w, false⟩
  else
    let endConnections :=
      ((ncGet nc w.endNode).filter (fun wid =>
        decide (wid ∉ used) && wid != w.id)).length
    let startConnections :=
      ((ncGet nc w.startNode).filter (fun wid =>
        decide (wid ∉ used) && wid != w.id)).length
    ⟨w, decide (endConnections < startConnections)⟩

/-- The residual-chain while-loop: while some route way is unused, seed a
new chain, grow it greedily, and collect it.  Stops when the used count
reaches the number of route ways or no seed is found. -/
def residualChains (ways : List Way) (nc : NodeConn)
    (endpoints : List ℕ) : ℕ → List ℕ → List (List RouteSegment)
  | 0, _ => []
  | fuel + 1, used =>
      if used.length < ways.length then
        match pickSeed ways nc endpoints used with
        | none => []
        | some (w, atEp) =>
            let seg := seedSegment nc used w atEp
            let chain := seg :: walkWith (selectNextResid ways nc)
              ways.length (seg.way.id :: used) (segEnd seg)
            chain :: residualChains ways nc endpoints fuel
              (chain.map (fun s => s.way.id) ++ used)
      else []

/-- Consolidation step: splice a chain onto the main chain by matching
endpoints, with the source's five-way preference (append, prepend, append
reversed with flags flipped, prepend reversed, plain append). -/
def spliceChains (main c : List RouteSegment) : List RouteSegment :=
  match main.head?, main.getLast?, c.head?, c.getLast? with
  | some m0, some mL, some c0, some cL =>
      if segEnd mL == segStart c0 then main ++ c
      else if segStart m0 == segEnd cL then c ++ main
      else if segEnd mL == segEnd cL then main ++ c.reverse.map flipSeg
      else if segStart m0 == segStart c0 then c.reverse.map flipSeg ++ main
      else main ++ c
  | _, _, _, _ => main ++ c

/-- Starting-node selection: an endpoint if at least two exist, else the
node of smallest degree (stable sort by connection count), else the first
route way's start_node (only reachable with no connections at all). -/
def chooseStart (ways : List Way) (nc : NodeConn) (endpoints : List ℕ) :
    ℕ :=
  if 2 ≤ endpoints.length then endpoints.headD 0
  else
    match (sortKeep (fun a b => decide (a.2.length ≤ b.2.length)) nc).head? with
    | some e => e.1
    | none => ((ways.head?).map (fun w => w.startNode)).getD 0

/-- The number of output ways carrying a set reversed flag. -/
def reversedCount (l : List OWay) : ℕ :=
  (l.filter (fun w => w.revFlag)).length

/-- The chain-building phase of arrange_ways_bidirectionally: the main
greedy walk from the chosen starting node followed by the residual
chains, all over the node_connections index of the route ways.  The fuel
of every loop is the number of route ways, which each iteration's
consumption of an unused way makes sufficient. -/
def stitchedChains (routeW : List Way) : List (List RouteSegment) :=
  let nc := buildNodeConnections routeW
  let endpoints := nc.filterMap (fun e =>
    if e.2.length == 1 then some e.1 else none)
  let start := chooseStart routeW nc endpoints
  let mainSegs := walkWith (selectNextMain routeW nc) routeW.length [] start
  mainSegs :: residualChains routeW nc endpoints routeW.length
    (mainSegs.map (fun s => s.way.id))

/-- The consolidation phase: sort all chains by length descending (the
stable Python sort with reverse=True) and splice every other chain onto
the longest one. -/
def consolidatedChain (chains : List (List RouteSegment)) :
    List RouteSegment :=
  let sorted := sortKeep
    (fun a b : List RouteSegment => decide (b.length ≤ a.length)) chains
  sorted.tail.foldl spliceChains (sorted.headD [])

/-- The global orientation heuristic: when more than half of the ordered
ways carry the reversed flag, reverse the whole non-loop chain, toggling
every flag and swapping every way's endpoints, and re-append the loops. -/
def globalFlip (loopW : List Way) (orderedWays : List OWay) : List OWay :=
  if orderedWays.length < 2 * reversedCount orderedWays then
    (orderedWays.filter (fun w =>
      decide (w.startNode ≠ w.endNode))).reverse.map flipOWay ++
      loopW.map wayToOWay
  else orderedWays

/-- arrange_ways_bidirectionally: partition off the self-loops, build the
chains over the route ways, consolidate them, convert to dictionaries,
append the loops, and apply the global orientation heuristic. -/
def arrange_ways_bidirectionally (raw : List Way) : List OWay :=
  if raw.isEmpty then []
  else
    let loopW := loopWaysOf raw
    let routeW := routeWaysOf raw
    if routeW.isEmpty then raw.map wayToOWay
    else
      globalFlip loopW
        ((consolidatedChain (stitchedChains routeW)).map segToDict ++
          loopW.map wayToOWay)

/-- A small concrete relation: two connectable route ways and one
self-loop, used to evaluate the stitcher on an explicit input. -/
def rawDemo : List Way :=
  [⟨1, [((0 : ℚ), (0 : ℚ)), ((0 : ℚ), (1 : ℚ))], [100, 101], 100, 101⟩,
   ⟨2, [((0 : ℚ), (1 : ℚ)), ((0 : ℚ), (2 : ℚ))], [101, 102], 101, 102⟩,
   ⟨3, [((5 : ℚ), (5 : ℚ)), ((5 : ℚ), (6 : ℚ)), ((5 : ℚ), (5 : ℚ))],
     [200, 201, 200], 200, 200⟩]

/-! ## General lemmas about the stable sort -/

theorem insertKeep_perm (keep : α → α → Bool) (x : α) (l : List α) :
    (insertKeep keep x l).Perm (x :: l) := by
  induction l with
  | nil => exact List.Perm.refl _
  | cons y ys ih =>
      unfold insertKeep
      split
      · exact (ih.cons y).trans (List.Perm.swap x y ys)
      · exact List.Perm.refl _

theorem sortKeep_foldl_perm (keep : α → α → Bool) (l acc : List α) :
    (l.foldl (fun acc x => insertKeep keep x acc) acc).Perm (acc ++ l) := by
  induction l generalizing acc with
  | nil => simp
  | cons x xs ih =>
      refine (ih (insertKeep keep x acc)).trans ?_
      refine (((insertKeep_perm keep x acc).append_right xs).trans ?_)
      exact List.perm_middle.symm

theorem sortKeep_perm (keep : α → α → Bool) (l : List α) :
    (sortKeep keep l).Perm l :=
  sortKeep_foldl_perm keep l []

theorem mem_insertKeep {keep : α → α → Bool} {x a : α} {l : List α} :
    a ∈ insertKeep keep x l ↔ a = x ∨ a ∈ l := by
  rw [(insertKeep_perm keep x l).mem_iff, List.mem_cons]

theorem pairwise_insertKeep {keep : α → α → Bool}
    (htot : ∀ a b, keep a b = true ∨ keep b a = true)
    (htrans : ∀ a b c, keep a b = true → keep b c = true → keep a c = true)
    (x : α) {l : List α} (hl : l.Pairwise (fun a b => keep a b = true)) :
    (insertKeep keep x l).Pairwise (fun a b => keep a b = true) := by
  induction l with
  | nil => simpa [insertKeep] using List.pairwise_singleton _ x
  | cons y ys ih =>
      rw [List.pairwise_cons] at hl
      obtain ⟨hy, hys⟩ := hl
      unfold insertKeep
      by_cases hk : keep y x = true
      · simp only [hk, if_true]
        rw [List.pairwise_cons]
        refine ⟨fun z hz => ?_, ih hys⟩
        rcases mem_insertKeep.mp hz with rfl | hz
        · exact hk
        · exact hy z hz
      · rw [Bool.not_eq_true] at hk
        simp only [hk, Bool.false_eq_true, if_false]
        rw [List.pairwise_cons]
        have hxy : keep x y = true :=
          (htot x y).resolve_right (by simp [hk])
        refine ⟨fun z hz => ?_, List.pairwise_cons.mpr ⟨hy, hys⟩⟩
        rcases List.mem_cons.mp hz with rfl | hz
        · exact hxy
        · exact htrans x y z hxy (hy z hz)

theorem pairwise_sortKeep {keep : α → α → Bool}
    (htot : ∀ a b, keep a b = true ∨ keep b a = true)
    (htrans : ∀ a b c, keep a b = true → keep b c = true → keep a c = true)
    (l : List α) :
    (sortKeep keep l).Pairwise (fun a b => keep a b = true) := by
  have aux : ∀ (l acc : List α),
      acc.Pairwise (fun a b => keep a b = true) →
      (l.foldl (fun acc x => insertKeep keep x acc) acc).Pairwise
        (fun a b => keep a b = true) := by
    intro l
    induction l with
    | nil => intro acc h; exact h
    | cons x xs ih =>
        intro acc h
        exact ih _ (pairwise_insertKeep htot htrans x h)
  exact aux l [] List.Pairwise.nil

/-! ## C1: previous/next stop queries -/

theorem sortStops_perm (stops : List StopD) : (sortStops stops).Perm stops :=
  sortKeep_perm _ stops

theorem sortStops_pairwise (stops : List StopD) :
    (sortStops stops).Pairwise (fun a b => a.dist ≤ b.dist) := by
  have h := @pairwise_sortKeep StopD
    (fun a b : StopD => decide (a.dist ≤ b.dist))
    (fun a b => by
      rcases le_total a.dist b.dist with h | h
      · exact Or.inl (decide_eq_true h)
      · exact Or.inr (decide_eq_true h))
    (fun a b c hab hbc =>
      decide_eq_true (le_trans (of_decide_eq_true hab) (of_decide_eq_true hbc)))
    stops
  exact h.imp (fun hab => of_decide_eq_true hab)

theorem qabs_eq_abs (x : ℚ) : qabs x = |x| := by
  unfold qabs
  rcases lt_or_le x 0 with h | h
  · rw [if_pos h, abs_of_neg h]
  · rw [if_neg (not_lt.mpr h), abs_of_nonneg h]

/-- A stop within the strict tolerance window satisfies the source's
previous-stop disjunction, and conversely. -/
theorem prevCond_iff (d : ℚ) (s : StopD) :
    prevCond d s = true ↔ s.dist < d + 1 := by
  unfold prevCond
  rw [qabs_eq_abs]
  simp only [Bool.or_eq_true, decide_eq_true_eq]
  constructor
  · rintro (h | h)
    · linarith
    · have := (abs_lt.mp h).2
      linarith
  · intro h
    rcases le_or_lt s.dist d with h' | h'
    · exact Or.inl h'
    · exact Or.inr (abs_lt.mpr ⟨by linarith, by linarith⟩)

/-- C1 (counterexample): with stops at distances 0 and 6 and cursor
distance d = 5, the stop at 6 lies within the claimed tolerance
(6 <= d + epsilon) and is the last such stop, yet the previous-stop query
returns the stop at 0, and the claimed chained inequality
previous(d).dist_from_start <= d + epsilon < next(d).dist_from_start
fails (the next stop is at exactly d + epsilon). -/
theorem stop_query_counterexample :
    find_nearest_stops [⟨1, 0⟩, ⟨2, 6⟩] 5 =
      (some ⟨1, 0⟩, some ⟨2, 6⟩) ∧
    (⟨2, 6⟩ : StopD) ∈ [(⟨1, 0⟩ : StopD), ⟨2, 6⟩] ∧
    (6 : ℚ) ≤ 5 + 1 ∧
    some (⟨1, 0⟩ : StopD) ≠ some (⟨2, 6⟩ : StopD) ∧
    ¬((0 : ℚ) ≤ 5 + 1 ∧ (5 : ℚ) + 1 < 6) := by
  refine ⟨?_, by decide, by norm_num, by decide, by norm_num⟩
  norm_num [find_nearest_stops, sortStops, sortKeep, insertKeep, prevCond,
    nextCond, qabs, List.find?]

/-- C1 (amended): whenever both queries return a stop, the previous stop
is the last stop of the sorted order whose distance is strictly below
d + epsilon (epsilon = 1 m; equivalently, at most d or within epsilon of
d), the next stop is the first stop whose distance strictly exceeds d,
and the two separate bounds previous(d).dist_from_start < d + epsilon and
d < next(d).dist_from_start hold; the chained form with d + epsilon below
the next stop's distance does not, since the next stop may lie within the
tolerance window. -/
theorem stop_query_correctness (stops : List StopD) (d : ℚ) (p nx : StopD)
    (h : find_nearest_stops stops d = (some p, some nx)) :
    p.dist < d + 1 ∧ d < nx.dist ∧
    (∀ s ∈ stops, s.dist < d + 1 → s.dist ≤ p.dist) ∧
    (∀ s ∈ stops, d < s.dist → nx.dist ≤ s.dist) := by
  unfold find_nearest_stops at h
  rw [Prod.mk.injEq] at h
  obtain ⟨hp, hn⟩ := h
  have hpmem := List.mem_of_find?_eq_some hp
  have hpcond := List.find?_some hp
  have hncond := List.find?_some hn
  have hpair := sortStops_pairwise stops
  have hperm := sortStops_perm stops
  obtain ⟨as, bs, hsplit, hfail⟩ := (List.find?_eq_some.mp hp).2
  obtain ⟨as', bs', hsplit', hfail'⟩ := (List.find?_eq_some.mp hn).2
  have hsorted_eq : sortStops stops = bs.reverse ++ p :: as.reverse := by
    have := congrArg List.reverse hsplit
    simpa [List.reverse_append] using this
  refine ⟨(prevCond_iff d p).mp hpcond, of_decide_eq_true hncond, ?_, ?_⟩
  · intro s hs hslt
    have hsmem : s ∈ sortStops stops := hperm.mem_iff.mpr hs
    rw [hsorted_eq] at hsmem hpair
    rcases List.mem_append.mp hsmem with hsl | hsr
    · exact (List.pairwise_append.mp hpair).2.2 s hsl p (List.mem_cons_self _ _)
    · rcases List.mem_cons.mp hsr with rfl | hsr
      · exact le_refl _
      · exfalso
        have : prevCond d s = true := (prevCond_iff d s).mpr hslt
        have hfa := hfail s (by simpa using hsr)
        simp only [Bool.not_eq_eq_eq_not, Bool.not_true] at hfa
        rw [this] at hfa
        exact Bool.true_eq_false.mp hfa
  · intro s hs hsgt
    have hsmem : s ∈ sortStops stops := hperm.mem_iff.mpr hs
    rw [hsplit'] at hsmem hpair
    rcases List.mem_append.mp hsmem with hsl | hsr
    · exfalso
      have hfa := hfail' s hsl
      simp only [Bool.not_eq_eq_eq_not, Bool.not_true] at hfa
      have : nextCond d s = true := decide_eq_true hsgt
      rw [this] at hfa
      exact Bool.true_eq_false.mp hfa
    · rcases List.mem_cons.mp hsr with rfl | hsr
      · exact le_refl _
      · exact (List.pairwise_cons.mp (List.pairwise_append.mp hpair).2.1).1 s hsr

theorem stop_query_correctness_witness :
    find_nearest_stops [⟨1, 0⟩, ⟨2, 6⟩] 5 = (some ⟨1, 0⟩, some ⟨2, 6⟩) ∧
    ((0 : ℚ) < 5 + 1 ∧ (5 : ℚ) < 6 ∧
      (∀ s ∈ [(⟨1, 0⟩ : StopD), ⟨2, 6⟩], s.dist < 5 + 1 → s.dist ≤ 0) ∧
      (∀ s ∈ [(⟨1, 0⟩ : StopD), ⟨2, 6⟩], 5 < s.dist → 6 ≤ s.dist)) := by
  have h : find_nearest_stops [⟨1, 0⟩, ⟨2, 6⟩] 5 =
      (some ⟨1, 0⟩, some ⟨2, 6⟩) := by
    norm_num [find_nearest_stops, sortStops, sortKeep, insertKeep, prevCond,
      nextCond, qabs, List.find?]
  exact ⟨h, stop_query_correctness [⟨1, 0⟩, ⟨2, 6⟩] 5 ⟨1, 0⟩ ⟨2, 6⟩ h⟩

/-! ## C6: summary-length override -/

/-- C6 (counterexample): a parseable summary line with value 0 is not used
as the total route length; Python truthiness (summary_length if
summary_length else calculated_length) silently discards a parsed 0 and
falls back to the locally computed length. -/
theorem summary_length_counterexample :
    get_route_total_length [⟨true, some 0⟩] = some 0 ∧
    selectTotalRouteLength (get_route_total_length [⟨true, some 0⟩]) 5 = 5 ∧
    (5 : ℚ) ≠ 0 := by
  refine ⟨rfl, ?_, by norm_num⟩
  simp [get_route_total_length, selectTotalRouteLength]

/-- C6 (amended): a parseable summary total overrides the locally computed
length, and feeds downstream computations such as the progress
percentage, if and only if it is nonzero; an absent, unparseable, or zero
summary value falls back to the locally computed length. -/
theorem summary_length_override (lines : List SummaryLine)
    (calculated dfs : ℚ) :
    (∀ v, get_route_total_length lines = some v → v ≠ 0 →
      selectTotalRouteLength (get_route_total_length lines) calculated = v ∧
      progressPercentage dfs
        (selectTotalRouteLength (get_route_total_length lines) calculated) =
        progressPercentage dfs v) ∧
    (get_route_total_length lines = none →
      selectTotalRouteLength (get_route_total_length lines) calculated =
        calculated) ∧
    (get_route_total_length lines = some 0 →
      selectTotalRouteLength (get_route_total_length lines) calculated =
        calculated) := by
  refine ⟨fun v hv hv0 => ?_, fun hn => ?_, fun h0 => ?_⟩
  · rw [hv]
    simp [selectTotalRouteLength, hv0]
  · rw [hn]
    simp [selectTotalRouteLength]
  · rw [h0]
    simp [selectTotalRouteLength]

theorem summary_length_override_witness :
    get_route_total_length [⟨true, some 7⟩] = some 7 ∧ (7 : ℚ) ≠ 0 ∧
    selectTotalRouteLength (get_route_total_length [⟨true, some 7⟩]) 3 = 7 :=
  ⟨rfl, by norm_num,
    ((summary_length_override [⟨true, some 7⟩] 3 1).1 7 rfl (by norm_num)).1⟩

/-! ## C8: change detection of the streaming tracker -/

/-- C8: for a present fix, the tracker's locate operation is invoked if
and only if the fix coordinates differ from the previously processed ones
(a missing previous fix counts as differing) or the update interval has
elapsed since the last invocation; when it is not invoked, the cached
state (last position, last result, last update time) is unchanged.  The
hypothesis is the state invariant, maintained by the handler itself, that
a previous position and a last update time are recorded together. -/
theorem change_detection {ρ : Type} (interval : ℚ) (locate : ℚ × ℚ → ρ)
    (s : TrackState ρ) (p : ℚ × ℚ) (now : ℚ)
    (hInv : s.lastPosition = none ↔ s.lastUpdateTime = none) :
    ((handle_position_update interval locate s (some p) now).2 = true ↔
      ((∀ q, s.lastPosition = some q → p ≠ q) ∨
        (∃ t, s.lastUpdateTime = some t ∧ interval ≤ now - t))) ∧
    ((handle_position_update interval locate s (some p) now).2 = false →
      (handle_position_update interval locate s (some p) now).1 = s) := by
  obtain ⟨lp, lr, lt⟩ := s
  rcases lp with _ | q <;> rcases lt with _ | t
  · constructor
    · simp [handle_position_update]
    · intro h
      simp [handle_position_update] at h
  · exact absurd (hInv.mp rfl) (by simp)
  · exact absurd (hInv.mpr rfl) (by simp)
  · constructor
    · simp only [handle_position_update]
      by_cases h1 : p.1 = q.1 <;> by_cases h2 : p.2 = q.2 <;>
        by_cases h3 : interval ≤ now - t <;>
          simp [h1, h2, h3, Prod.ext_iff]
    · intro h
      simp only [handle_position_update] at h ⊢
      by_cases h1 : p.1 = q.1 <;> by_cases h2 : p.2 = q.2 <;>
        by_cases h3 : interval ≤ now - t <;>
          simp [h1, h2, h3] at h ⊢

theorem change_detection_witness :
    ((⟨none, none, none⟩ : TrackState ℚ).lastPosition = none ↔
      (⟨none, none, none⟩ : TrackState ℚ).lastUpdateTime = none) ∧
    (((handle_position_update 10 (fun p => p.1)
        (⟨none, none, none⟩ : TrackState ℚ) (some (1, 2)) 0).2 = true ↔
      ((∀ q, (⟨none, none, none⟩ : TrackState ℚ).lastPosition = some q →
          (1, 2) ≠ q) ∨
        (∃ t, (⟨none, none, none⟩ : TrackState ℚ).lastUpdateTime = some t ∧
          10 ≤ 0 - t))) ∧
    (((handle_position_update 10 (fun p => p.1)
        (⟨none, none, none⟩ : TrackState ℚ) (some (1, 2)) 0).2 = false →
      (handle_position_update 10 (fun p => p.1)
        (⟨none, none, none⟩ : TrackState ℚ) (some (1, 2)) 0).1 =
        ⟨none, none, none⟩))) :=
  ⟨by simp, change_detection 10 (fun p => p.1) ⟨none, none, none⟩ (1, 2) 0
    (by simp)⟩

/-! ## C9: the projection never propagates a failure -/

/-- C9: when the projection's segment loop cannot run (fewer than 2 route
vertices, the modelled failure of find_location_on_route), the function
returns the fallback dictionary whose nearest point is the query location
itself, whose two distances are 0 and which carries the error entry,
instead of propagating an exception. -/
theorem projection_fallback (hav : Point → Point → ℚ) (coords : List Point)
    (loc : Point) (h : coords.length < 2) :
    find_location_on_route hav coords loc = ⟨loc, 0, 0, true⟩ := by
  match coords with
  | [] => rfl
  | [p] => rfl
  | p :: q :: rest =>
      exfalso
      simp only [List.length_cons] at h
      omega

theorem projection_fallback_witness :
    ([(0, 0)] : List Point).length < 2 ∧
    find_location_on_route (fun _ _ => 0) [(0, 0)] (3, 4) =
      ⟨(3, 4), 0, 0, true⟩ :=
  ⟨by decide, projection_fallback (fun _ _ => 0) [(0, 0)] (3, 4) (by decide)⟩

/-! ## C5 and C10: segment lookup -/

theorem foldl_add_init_le {β : Type} (f : β → ℚ) (hf : ∀ x, 0 ≤ f x) :
    ∀ (l : List β) (acc : ℚ), acc ≤ l.foldl (fun a x => a + f x) acc := by
  intro l
  induction l with
  | nil => intro acc; exact le_refl _
  | cons x xs ih =>
      intro acc
      calc acc ≤ acc + f x := le_add_of_nonneg_right (hf x)
        _ ≤ _ := ih (acc + f x)

theorem wayLength_nonneg (hav : Point → Point → ℚ)
    (hpos : ∀ p q, 0 ≤ hav p q) (w : OWay) : 0 ≤ wayLength hav w := by
  unfold wayLength
  exact foldl_add_init_le (β := Point × Point) (fun pq => hav pq.1 pq.2)
    (fun pq => hpos pq.1 pq.2) (segPairs w.nodes) 0

theorem fsiTotal_nil (hav : Point → Point → ℚ) : fsiTotal hav [] = 0 :=
  rfl

theorem fsiTotal_cons (hav : Point → Point → ℚ) (w : OWay) (rest : List OWay) :
    fsiTotal hav (w :: rest) =
      (if w.nodes.length < 2 then 0 else wayLength hav w) +
        fsiTotal hav rest :=
  rfl

theorem fsiTotal_nonneg (hav : Point → Point → ℚ)
    (hpos : ∀ p q, 0 ≤ hav p q) (l : List OWay) : 0 ≤ fsiTotal hav l := by
  induction l with
  | nil => exact le_refl _
  | cons w rest ih =>
      rw [fsiTotal_cons]
      have : (0 : ℚ) ≤ if w.nodes.length < 2 then 0 else wayLength hav w := by
        split
        · exact le_refl _
        · exact wayLength_nonneg hav hpos w
      linarith

/-- When the main loop of find_segment_index finds nothing, the returned
cumulative distance is the initial one plus the total of the remaining
ways. -/
theorem fsiLoop_none_snd (hav : Point → Point → ℚ) (d : ℚ) :
    ∀ (l : List OWay) (i : ℕ) (cum : ℚ),
      (fsiLoop hav d l i cum).1 = none →
      (fsiLoop hav d l i cum).2 = cum + fsiTotal hav l := by
  intro l
  induction l with
  | nil => intro i cum _; simp [fsiLoop, fsiTotal]
  | cons w rest ih =>
      intro i cum hnone
      by_cases hdeg : w.nodes.length < 2
      · rw [fsiLoop, if_pos hdeg] at hnone ⊢
        rw [ih _ _ hnone, fsiTotal_cons, if_pos hdeg]
        ring
      · rw [fsiLoop, if_neg hdeg] at hnone ⊢
        by_cases ht : cum ≤ d ∧ d ≤ cum + wayLength hav w
        · rw [if_pos ht] at hnone
          exact absurd hnone (by simp)
        · rw [if_neg ht] at hnone ⊢
          rw [ih _ _ hnone, fsiTotal_cons, if_neg hdeg]
          ring

/-- A queried distance strictly below the running cumulative distance is
never matched by the loop. -/
theorem fsiLoop_none_of_lt (hav : Point → Point → ℚ) (d : ℚ)
    (hpos : ∀ p q, 0 ≤ hav p q) :
    ∀ (l : List OWay) (i : ℕ) (cum : ℚ), d < cum →
      (fsiLoop hav d l i cum).1 = none := by
  intro l
  induction l with
  | nil => intro i cum _; rfl
  | cons w rest ih =>
      intro i cum hlt
      by_cases hdeg : w.nodes.length < 2
      · rw [fsiLoop, if_pos hdeg]
        exact ih _ _ hlt
      · rw [fsiLoop, if_neg hdeg]
        have hfail : ¬(cum ≤ d ∧ d ≤ cum + wayLength hav w) := by
          rintro ⟨h1, _⟩
          exact absurd hlt (not_lt.mpr h1)
        rw [if_neg hfail]
        exact ih _ _ (lt_of_lt_of_le hlt
          (le_add_of_nonneg_right (wayLength_nonneg hav hpos w)))

/-- A queried distance strictly above the cumulative total of the
remaining ways is never matched by the loop. -/
theorem fsiLoop_none_of_gt (hav : Point → Point → ℚ) (d : ℚ)
    (hpos : ∀ p q, 0 ≤ hav p q) :
    ∀ (l : List OWay) (i : ℕ) (cum : ℚ), cum + fsiTotal hav l < d →
      (fsiLoop hav d l i cum).1 = none := by
  intro l
  induction l with
  | nil => intro i cum _; rfl
  | cons w rest ih =>
      intro i cum hgt
      rw [fsiTotal_cons] at hgt
      by_cases hdeg : w.nodes.length < 2
      · rw [fsiLoop, if_pos hdeg]
        rw [if_pos hdeg] at hgt
        exact ih _ _ (by linarith)
      · rw [fsiLoop, if_neg hdeg]
        rw [if_neg hdeg] at hgt
        have hrest : 0 ≤ fsiTotal hav rest := fsiTotal_nonneg hav hpos rest
        have hfail : ¬(cum ≤ d ∧ d ≤ cum + wayLength hav w) := by
          rintro ⟨_, h2⟩
          linarith
        rw [if_neg hfail]
        exact ih _ _ (by linarith)

/-- If the loop finds nothing although the queried distance lies within
the cumulative range, every remaining way is degenerate and the distance
sits exactly at the running cumulative distance. -/
theorem fsiLoop_none_in_range (hav : Point → Point → ℚ) (d : ℚ) :
    ∀ (l : List OWay) (i : ℕ) (cum : ℚ), cum ≤ d →
      d ≤ cum + fsiTotal hav l →
      (fsiLoop hav d l i cum).1 = none →
      (∀ w ∈ l, w.nodes.length < 2) ∧ d = cum := by
  intro l
  induction l with
  | nil =>
      intro i cum h1 h2 _
      rw [fsiTotal_nil] at h2
      exact ⟨by simp, le_antisymm (by linarith) h1⟩
  | cons w rest ih =>
      intro i cum h1 h2 hnone
      rw [fsiTotal_cons] at h2
      by_cases hdeg : w.nodes.length < 2
      · rw [fsiLoop, if_pos hdeg] at hnone
        rw [if_pos hdeg] at h2
        obtain ⟨hall, hd⟩ := ih _ _ h1 (by linarith) hnone
        refine ⟨fun v hv => ?_, hd⟩
        rcases List.mem_cons.mp hv with rfl | hv
        · exact hdeg
        · exact hall v hv
      · rw [fsiLoop, if_neg hdeg] at hnone
        rw [if_neg hdeg] at h2
        by_cases ht : cum ≤ d ∧ d ≤ cum + wayLength hav w
        · rw [if_pos ht] at hnone
          exact absurd hnone (by simp)
        · rw [if_neg ht] at hnone
          have hlt : cum + wayLength hav w < d := by
            rcases not_and_or.mp ht with h | h
            · exact absurd h1 h
            · exact lt_of_not_le h
          obtain ⟨_, hd⟩ := ih _ _ (le_of_lt hlt) (by linarith) hnone
          exact absurd hd (by intro hd'; linarith)

/-- Characterization of a successful loop match: it returns the in-range
record of the first way whose cumulative interval contains the queried
distance, every earlier way being degenerate or already passed. -/
theorem fsiLoop_some (hav : Point → Point → ℚ) (d : ℚ) :
    ∀ (l : List OWay) (i : ℕ) (cum : ℚ) (r : SegmentInfo), cum ≤ d →
      (fsiLoop hav d l i cum).1 = some r →
      ∃ k, ∃ hk : k < l.length,
        2 ≤ l[k].nodes.length ∧
        cum + fsiTotal hav (l.take k) ≤ d ∧
        d ≤ cum + fsiTotal hav (l.take k) + wayLength hav l[k] ∧
        r = inRangeInfo hav (i + k) l[k] (cum + fsiTotal hav (l.take k)) d ∧
        ∀ j, ∀ hj : j < k, l[j].nodes.length < 2 ∨
          cum + fsiTotal hav (l.take j) + wayLength hav l[j] < d := by
  intro l
  induction l with
  | nil => intro i cum r _ h; exact absurd h (by simp [fsiLoop])
  | cons w rest ih =>
      intro i cum r h1 hsome
      by_cases hdeg : w.nodes.length < 2
      · rw [fsiLoop, if_pos hdeg] at hsome
        obtain ⟨k, hk, hnd, hlo, hhi, hr, hmin⟩ := ih _ _ _ h1 hsome
        refine ⟨k + 1, by simpa using Nat.succ_lt_succ hk, ?_, ?_, ?_, ?_, ?_⟩
        · simpa using hnd
        · simpa [fsiTotal_cons, hdeg] using hlo
        · simpa [fsiTotal_cons, hdeg] using hhi
        · have : i + 1 + k = i + (k + 1) := by omega
          rw [← this]
          simpa [fsiTotal_cons, hdeg] using hr
        · intro j hj
          match j, hj with
          | 0, _ => exact Or.inl hdeg
          | j' + 1, hj =>
              have hj' : j' < k := by omega
              rcases hmin j' hj' with hl | hr'
              · exact Or.inl (by simpa using hl)
              · refine Or.inr ?_
                simpa [fsiTotal_cons, hdeg] using hr'
      · rw [fsiLoop, if_neg hdeg] at hsome
        by_cases ht : cum ≤ d ∧ d ≤ cum + wayLength hav w
        · rw [if_pos ht] at hsome
          simp only [Option.some.injEq] at hsome
          refine ⟨0, by simp, by simpa using Nat.le_of_not_lt hdeg, ?_, ?_, ?_,
            fun j hj => absurd hj (Nat.not_lt_zero j)⟩
          · simpa [fsiTotal_nil] using ht.1
          · simpa [fsiTotal_nil] using ht.2
          · simpa [fsiTotal_nil] using hsome.symm
        · rw [if_neg ht] at hsome
          have hlt : cum + wayLength hav w < d := by
            rcases not_and_or.mp ht with h | h
            · exact absurd h1 h
            · exact lt_of_not_le h
          obtain ⟨k, hk, hnd, hlo, hhi, hr, hmin⟩ := ih _ _ _ (le_of_lt hlt) hsome
          refine ⟨k + 1, by simpa using Nat.succ_lt_succ hk, ?_, ?_, ?_, ?_, ?_⟩
          · simpa using hnd
          · simp only [List.take_succ_cons]
            rw [fsiTotal_cons, if_neg hdeg]
            linarith [hlo]
          · simp only [List.take_succ_cons, List.getElem_cons_succ]
            rw [fsiTotal_cons, if_neg hdeg]
            linarith [hhi]
          · have harith : i + 1 + k = i + (k + 1) := by omega
            rw [← harith]
            simp only [List.take_succ_cons, List.getElem_cons_succ]
            rw [fsiTotal_cons, if_neg hdeg, hr]
            congr 1
            ring
          · intro j hj
            match j, hj with
            | 0, _ =>
                refine Or.inr ?_
                simpa [fsiTotal_nil] using hlt
            | j' + 1, hj =>
                have hj' : j' < k := by omega
                rcases hmin j' hj' with hl | hr'
                · exact Or.inl (by simpa using hl)
                · refine Or.inr ?_
                  simp only [List.take_succ_cons, List.getElem_cons_succ]
                  rw [fsiTotal_cons, if_neg hdeg]
                  linarith [hr']

/-- C5: segment lookup on a non-empty ordered way list clamps a distance
beyond the accumulated total to the last way with percentage 100, a full
in-segment offset and a warning; clamps a negative distance to the first
way with percentage 0, offset 0 and a warning; and for a distance within
the cumulative range (of a list with at least one non-degenerate way, as
the data model guarantees) returns the first way whose cumulative
interval contains the distance, with no warning.  Way lengths are
accumulated with the nonnegative haversine distance. -/
theorem segment_lookup_clamping (hav : Point → Point → ℚ) (rd : List OWay)
    (d : ℚ) (hne : rd ≠ []) (hpos : ∀ p q, 0 ≤ hav p q) :
    (fsiTotal hav rd < d → ∃ lw, rd.getLast? = some lw ∧
      find_segment_index hav rd d = some ⟨rd.length - 1, lw.id,
        wayLength hav lw, 100, wayLength hav lw, lw.startNode, lw.endNode,
        true⟩) ∧
    (d < 0 → ∃ fw, rd.head? = some fw ∧
      find_segment_index hav rd d = some ⟨0, fw.id, 0, 0, wayLength hav fw,
        fw.startNode, fw.endNode, true⟩) ∧
    (0 ≤ d → d ≤ fsiTotal hav rd → (∃ w ∈ rd, 2 ≤ w.nodes.length) →
      ∃ k, ∃ hk : k < rd.length, 2 ≤ rd[k].nodes.length ∧
        fsiTotal hav (rd.take k) ≤ d ∧
        d ≤ fsiTotal hav (rd.take k) + wayLength hav rd[k] ∧
        (∀ j, ∀ hj : j < k, rd[j].nodes.length < 2 ∨
          fsiTotal hav (rd.take j) + wayLength hav rd[j] < d) ∧
        find_segment_index hav rd d =
          some (inRangeInfo hav k rd[k] (fsiTotal hav (rd.take k)) d)) := by
  have hfw : rd.head? = some (rd.head hne) := List.head?_eq_head hne
  obtain ⟨lw, hlw⟩ := Option.isSome_iff_exists.mp
    (List.getLast?_isSome.mpr hne)
  refine ⟨fun hgt => ?_, fun hneg => ?_, fun h0 hle hex => ?_⟩
  · have hnone := fsiLoop_none_of_gt hav d hpos rd 0 0 (by linarith)
    have hsnd := fsiLoop_none_snd hav d rd 0 0 hnone
    have heq : fsiLoop hav d rd 0 0 = (none, 0 + fsiTotal hav rd) :=
      Prod.ext hnone hsnd
    refine ⟨lw, hlw, ?_⟩
    simp only [find_segment_index, heq, hfw, hlw]
    rw [if_pos (show 0 + fsiTotal hav rd < d by linarith)]
  · have hnone := fsiLoop_none_of_lt hav d hpos rd 0 0 (by linarith)
    have hsnd := fsiLoop_none_snd hav d rd 0 0 hnone
    have heq : fsiLoop hav d rd 0 0 = (none, 0 + fsiTotal hav rd) :=
      Prod.ext hnone hsnd
    have htot := fsiTotal_nonneg hav hpos rd
    refine ⟨rd.head hne, hfw, ?_⟩
    simp only [find_segment_index, heq, hfw, hlw]
    rw [if_neg (show ¬(0 + fsiTotal hav rd < d) by intro h; linarith),
      if_pos hneg]
  · cases hfst : (fsiLoop hav d rd 0 0).1 with
    | none =>
        exfalso
        obtain ⟨hall, _⟩ :=
          fsiLoop_none_in_range hav d rd 0 0 h0 (by linarith) hfst
        obtain ⟨w, hw, hw2⟩ := hex
        have := hall w hw
        omega
    | some r =>
        obtain ⟨k, hk, h2, hlo, hhi, hr, hmin⟩ :=
          fsiLoop_some hav d rd 0 0 r h0 hfst
        refine ⟨k, hk, h2, by linarith, by linarith, ?_, ?_⟩
        · intro j hj
          rcases hmin j hj with h | h
          · exact Or.inl h
          · exact Or.inr (by linarith)
        · obtain ⟨X, hX⟩ : ∃ x, fsiLoop hav d rd 0 0 = (some r, x) :=
            ⟨(fsiLoop hav d rd 0 0).2, Prod.ext hfst rfl⟩
          simp only [find_segment_index, hX]
          rw [hr]
          simp

theorem segment_lookup_clamping_witness :
    ([(⟨5, [(0, 0), (0, 1)], [1, 2], 1, 2, false⟩ : OWay)] ≠ []) ∧
    fsiTotal (fun _ _ => 1) [(⟨5, [(0, 0), (0, 1)], [1, 2], 1, 2, false⟩ : OWay)]
      < 1000000 ∧
    (∃ lw, [(⟨5, [(0, 0), (0, 1)], [1, 2], 1, 2, false⟩ : OWay)].getLast? =
        some lw ∧
      find_segment_index (fun _ _ => 1)
        [(⟨5, [(0, 0), (0, 1)], [1, 2], 1, 2, false⟩ : OWay)] 1000000 =
        some ⟨0, lw.id, wayLength (fun _ _ => 1) lw, 100,
          wayLength (fun _ _ => 1) lw, lw.startNode, lw.endNode, true⟩) := by
  have htot : fsiTotal (fun _ _ => 1)
      [(⟨5, [(0, 0), (0, 1)], [1, 2], 1, 2, false⟩ : OWay)] < 1000000 := by
    norm_num [fsiTotal_cons, fsiTotal_nil, wayLength, segPairs]
  exact ⟨by simp, htot,
    (segment_lookup_clamping (fun _ _ => 1)
      [⟨5, [(0, 0), (0, 1)], [1, 2], 1, 2, false⟩] 1000000 (by simp)
      (fun _ _ => by norm_num)).1 htot⟩

/-- C10: on a non-empty ordered way list whose ways all have at least 2
nodes (the Way data model's invariant, enforced at extraction), segment
lookup always returns a record for every queried distance: the per-way
cumulative intervals cover the range and the two clamp branches handle
everything outside it. -/
theorem segment_lookup_totality (hav : Point → Point → ℚ) (rd : List OWay)
    (d : ℚ) (hne : rd ≠ []) (hall : ∀ w ∈ rd, 2 ≤ w.nodes.length) :
    (find_segment_index hav rd d).isSome = true := by
  have hfw : rd.head? = some (rd.head hne) := List.head?_eq_head hne
  obtain ⟨lw, hlw⟩ := Option.isSome_iff_exists.mp
    (List.getLast?_isSome.mpr hne)
  cases hfst : (fsiLoop hav d rd 0 0).1 with
  | some r =>
      obtain ⟨X, hX⟩ : ∃ x, fsiLoop hav d rd 0 0 = (some r, x) :=
        ⟨(fsiLoop hav d rd 0 0).2, Prod.ext hfst rfl⟩
      simp [find_segment_index, hX]
  | none =>
      have hsnd := fsiLoop_none_snd hav d rd 0 0 hfst
      have heq : fsiLoop hav d rd 0 0 = (none, 0 + fsiTotal hav rd) :=
        Prod.ext hfst hsnd
      simp only [find_segment_index, heq, hfw, hlw]
      by_cases hgt : 0 + fsiTotal hav rd < d
      · rw [if_pos hgt]
        rfl
      · rw [if_neg hgt]
        by_cases hneg : d < 0
        · rw [if_pos hneg]
          rfl
        · exfalso
          obtain ⟨hall2, _⟩ := fsiLoop_none_in_range hav d rd 0 0
            (by linarith [not_lt.mp hneg]) (by linarith [not_lt.mp hgt]) hfst
          obtain ⟨w, hw⟩ := List.exists_mem_of_ne_nil rd hne
          have := hall w hw
          have := hall2 w hw
          omega

theorem segment_lookup_totality_witness :
    ([(⟨7, [(0, 0), (2, 0)], [1, 2], 1, 2, false⟩ : OWay)] ≠ []) ∧
    (∀ w ∈ [(⟨7, [(0, 0), (2, 0)], [1, 2], 1, 2, false⟩ : OWay)],
      2 ≤ w.nodes.length) ∧
    (find_segment_index (fun _ _ => 2)
      [(⟨7, [(0, 0), (2, 0)], [1, 2], 1, 2, false⟩ : OWay)] (-5)).isSome =
      true :=
  ⟨by simp, by decide,
    segment_lookup_totality (fun _ _ => 2)
      [⟨7, [(0, 0), (2, 0)], [1, 2], 1, 2, false⟩] (-5) (by simp) (by decide)⟩

/-! ## C7: turn classification -/

/-- The classification stored by one firing of the detector: the severity
qualifier is sharp exactly above 100 degrees, empty (normal) exactly in
(60, 100], slight otherwise; the side is right exactly for a positive
delta; the recorded distance is the cumulative arc length at the vertex;
the stored delta is the signed bearing difference. -/
theorem mkTurn_props (hav : Point → Point → ℚ) (pts : List Point) (i : ℕ)
    (pre post delta : ℚ) (h40 : 40 ≤ qabs delta)
    (hd : delta = signedDelta post pre) :
    ((mkTurn hav pts i pre post delta).bearingChange =
      signedDelta (mkTurn hav pts i pre post delta).postBearing
        (mkTurn hav pts i pre post delta).preBearing) ∧
    40 ≤ qabs (mkTurn hav pts i pre post delta).bearingChange ∧
    (mkTurn hav pts i pre post delta).distance =
      cumDistAt hav pts (mkTurn hav pts i pre post delta).index ∧
    ((mkTurn hav pts i pre post delta).intensity = .sharp ↔
      100 < qabs (mkTurn hav pts i pre post delta).bearingChange) ∧
    ((mkTurn hav pts i pre post delta).intensity = .normal ↔
      60 < qabs (mkTurn hav pts i pre post delta).bearingChange ∧
        qabs (mkTurn hav pts i pre post delta).bearingChange ≤ 100) ∧
    ((mkTurn hav pts i pre post delta).intensity = .slight ↔
      qabs (mkTurn hav pts i pre post delta).bearingChange ≤ 60) ∧
    ((mkTurn hav pts i pre post delta).side = .right ↔
      0 < (mkTurn hav pts i pre post delta).bearingChange) ∧
    ((mkTurn hav pts i pre post delta).side = .left ↔
      (mkTurn hav pts i pre post delta).bearingChange ≤ 0) := by
  unfold mkTurn
  dsimp only
  refine ⟨hd, h40, rfl, ?_, ?_, ?_, ?_, ?_⟩
  · split_ifs with h1 h2
    · simp [h1]
    · simp [h1]
    · simp [h1]
  · split_ifs with h1 h2
    · simp [not_le.mpr h1]
    · simp [h2, not_lt.mp h1]
    · simp [h2]
  · split_ifs with h1 h2
    · simp [not_le.mpr (show (60:ℚ) < qabs delta by linarith)]
    · simp [not_le.mpr h2]
    · simp [not_lt.mp h2]
  · split_ifs with h1
    · simp [h1]
    · simp [not_lt.mp h1]
  · split_ifs with h1
    · simp [not_le.mpr h1]
    · simp [not_lt.mp h1]

theorem turnScan_mem (bearing hav : Point → Point → ℚ) (pts : List Point) :
    ∀ (fuel i : ℕ) (t : TurnPoint), t ∈ turnScan bearing hav pts fuel i →
      (t.bearingChange = signedDelta t.postBearing t.preBearing) ∧
      40 ≤ qabs t.bearingChange ∧
      t.distance = cumDistAt hav pts t.index ∧
      (t.intensity = .sharp ↔ 100 < qabs t.bearingChange) ∧
      (t.intensity = .normal ↔
        60 < qabs t.bearingChange ∧ qabs t.bearingChange ≤ 100) ∧
      (t.intensity = .slight ↔ qabs t.bearingChange ≤ 60) ∧
      (t.side = .right ↔ 0 < t.bearingChange) ∧
      (t.side = .left ↔ t.bearingChange ≤ 0) := by
  intro fuel
  induction fuel with
  | zero => intro i t ht; exact absurd ht (by simp [turnScan])
  | succ f ih =>
      intro i t ht
      simp only [turnScan] at ht
      split_ifs at ht with hc h40
      · rcases List.mem_cons.mp ht with rfl | ht
        · exact mkTurn_props hav pts i _ _ _ h40 rfl
        · exact ih _ _ ht
      · exact ih _ _ ht
      · exact absurd ht (by simp)

theorem turnScan_index_ge (bearing hav : Point → Point → ℚ)
    (pts : List Point) :
    ∀ (fuel i : ℕ) (t : TurnPoint), t ∈ turnScan bearing hav pts fuel i →
      i ≤ t.index := by
  intro fuel
  induction fuel with
  | zero => intro i t ht; exact absurd ht (by simp [turnScan])
  | succ f ih =>
      intro i t ht
      simp only [turnScan] at ht
      split_ifs at ht with hc h40
      · rcases List.mem_cons.mp ht with rfl | ht
        · exact le_refl _
        · exact le_trans (by omega) (ih _ _ ht)
      · exact le_trans (by omega) (ih _ _ ht)
      · exact absurd ht (by simp)

theorem turnScan_chain (bearing hav : Point → Point → ℚ)
    (pts : List Point) :
    ∀ (fuel i : ℕ),
      List.Chain' (fun a b : TurnPoint => a.index + 20 ≤ b.index)
        (turnScan bearing hav pts fuel i) := by
  intro fuel
  induction fuel with
  | zero => intro i; simp [turnScan]
  | succ f ih =>
      intro i
      simp only [turnScan]
      split_ifs with hc h40
      · rw [List.chain'_cons']
        refine ⟨fun b hb => ?_, ih _⟩
        have hbmem : b ∈ turnScan bearing hav pts f (i + 20) :=
          List.mem_of_mem_head? hb
        have := turnScan_index_ge bearing hav pts f (i + 20) b hbmem
        simpa [mkTurn] using this
      · exact ih _
      · simp

/-- The fuel used by turn_points is in the stable region: any fuel at
least the number of points beyond the scan index yields the same scan,
since the index advances by at least the step each iteration. -/
theorem turnScan_fuel_eq (bearing hav : Point → Point → ℚ)
    (pts : List Point) :
    ∀ (f g i : ℕ), pts.length ≤ f + i → pts.length ≤ g + i →
      turnScan bearing hav pts f i = turnScan bearing hav pts g i := by
  intro f
  induction f with
  | zero =>
      intro g i h1 h2
      cases g with
      | zero => rfl
      | succ g =>
          rw [turnScan, turnScan]
          rw [if_neg (by omega)]
  | succ f ih =>
      intro g i h1 h2
      cases g with
      | zero =>
          rw [turnScan, turnScan]
          rw [if_neg (by omega)]
      | succ g =>
          rw [turnScan]
          conv_rhs => rw [turnScan]
          by_cases hc : i < pts.length - 20
          · rw [if_pos hc, if_pos hc]
            dsimp only
            split_ifs with h40
            · rw [ih g (i + 20) (by omega) (by omega)]
            · exact ih g (i + 10) (by omega) (by omega)
          · rw [if_neg hc, if_neg hc]

/-- C7: every turn recorded by the detector satisfies the claimed
classification: it fired on a signed delta of absolute value at least 40;
the severity qualifier is sharp exactly when the absolute delta exceeds
100, empty (normal) exactly when it lies in (60, 100], and slight
otherwise; the side is right exactly when the delta is positive and left
otherwise; the turn is recorded at the cumulative arc length of its
vertex; and successive recorded turns are at least the lookahead of 20
vertices apart, since the scan index jumps by the lookahead after each
detection. -/
theorem turn_classification (bearing hav : Point → Point → ℚ)
    (pts : List Point) :
    (∀ t ∈ turn_points bearing hav pts,
      (t.bearingChange = signedDelta t.postBearing t.preBearing) ∧
      40 ≤ qabs t.bearingChange ∧
      t.distance = cumDistAt hav pts t.index ∧
      (t.intensity = .sharp ↔ 100 < qabs t.bearingChange) ∧
      (t.intensity = .normal ↔
        60 < qabs t.bearingChange ∧ qabs t.bearingChange ≤ 100) ∧
      (t.intensity = .slight ↔ qabs t.bearingChange ≤ 60) ∧
      (t.side = .right ↔ 0 < t.bearingChange) ∧
      (t.side = .left ↔ t.bearingChange ≤ 0)) ∧
    List.Chain' (fun a b : TurnPoint => a.index + 20 ≤ b.index)
      (turn_points bearing hav pts) :=
  ⟨fun t ht => turnScan_mem bearing hav pts pts.length 10 t ht,
    turnScan_chain bearing hav pts pts.length 10⟩

theorem turn_classification_witness :
    (⟨10, 10, 60, 30, 90, .slight, .right⟩ : TurnPoint) ∈
      turn_points (fun _ b => 3 * b.1) (fun _ _ => 1)
        ([(0, 0), (1, 0), (2, 0), (3, 0), (4, 0), (5, 0), (6, 0), (7, 0), (8, 0), (9, 0), (10, 0), (11, 0), (12, 0), (13, 0), (14, 0), (15, 0), (16, 0), (17, 0), (18, 0), (19, 0), (20, 0), (21, 0), (22, 0), (23, 0), (24, 0), (25, 0), (26, 0), (27, 0), (28, 0), (29, 0), (30, 0)] : List Point) ∧
    ((⟨10, 10, 60, 30, 90, .slight, .right⟩ : TurnPoint).bearingChange =
      signedDelta 90 30 ∧
    (40 : ℚ) ≤ qabs (60 : ℚ) ∧
    (10 : ℚ) = cumDistAt (fun _ _ => 1)
      ([(0, 0), (1, 0), (2, 0), (3, 0), (4, 0), (5, 0), (6, 0), (7, 0), (8, 0), (9, 0), (10, 0), (11, 0), (12, 0), (13, 0), (14, 0), (15, 0), (16, 0), (17, 0), (18, 0), (19, 0), (20, 0), (21, 0), (22, 0), (23, 0), (24, 0), (25, 0), (26, 0), (27, 0), (28, 0), (29, 0), (30, 0)] : List Point) 10 ∧
    (TurnIntensity.slight = .sharp ↔ (100 : ℚ) < qabs 60) ∧
    (TurnIntensity.slight = .normal ↔
      (60 : ℚ) < qabs 60 ∧ qabs (60 : ℚ) ≤ 100) ∧
    (TurnIntensity.slight = .slight ↔ qabs (60 : ℚ) ≤ 60) ∧
    (TurnSide.right = .right ↔ (0 : ℚ) < 60) ∧
    (TurnSide.right = .left ↔ (60 : ℚ) ≤ 0)) := by
  have hfl : Rat.floor (((90 : ℚ) - 30 + 180) / 360) = 0 := by
    rw [show Rat.floor (((90 : ℚ) - 30 + 180) / 360) =
      ⌊((90 : ℚ) - 30 + 180) / 360⌋ from rfl]
    rw [Int.floor_eq_iff]
    norm_num
  have hdelta : signedDelta 90 30 = 60 := by
    unfold signedDelta qmod
    rw [hfl]
    norm_num
  have hc10 : cumDistAt (fun _ _ => (1 : ℚ))
      ([(0, 0), (1, 0), (2, 0), (3, 0), (4, 0), (5, 0), (6, 0), (7, 0), (8, 0), (9, 0), (10, 0), (11, 0), (12, 0), (13, 0), (14, 0), (15, 0), (16, 0), (17, 0), (18, 0), (19, 0), (20, 0), (21, 0), (22, 0), (23, 0), (24, 0), (25, 0), (26, 0), (27, 0), (28, 0), (29, 0), (30, 0)] : List Point) 10 = 10 := by
    show (0 : ℚ) + 1 + 1 + 1 + 1 + 1 + 1 + 1 + 1 + 1 + 1 = 10
    norm_num
  have hmem : (⟨10, 10, 60, 30, 90, .slight, .right⟩ : TurnPoint) ∈
      turn_points (fun _ b => 3 * b.1) (fun _ _ => 1)
        ([(0, 0), (1, 0), (2, 0), (3, 0), (4, 0), (5, 0), (6, 0), (7, 0), (8, 0), (9, 0), (10, 0), (11, 0), (12, 0), (13, 0), (14, 0), (15, 0), (16, 0), (17, 0), (18, 0), (19, 0), (20, 0), (21, 0), (22, 0), (23, 0), (24, 0), (25, 0), (26, 0), (27, 0), (28, 0), (29, 0), (30, 0)] : List Point) := by
    rw [show turn_points (fun _ b => 3 * b.1) (fun _ _ => 1)
        ([(0, 0), (1, 0), (2, 0), (3, 0), (4, 0), (5, 0), (6, 0), (7, 0), (8, 0), (9, 0), (10, 0), (11, 0), (12, 0), (13, 0), (14, 0), (15, 0), (16, 0), (17, 0), (18, 0), (19, 0), (20, 0), (21, 0), (22, 0), (23, 0), (24, 0), (25, 0), (26, 0), (27, 0), (28, 0), (29, 0), (30, 0)] : List Point) =
      turnScan (fun _ b => 3 * b.1) (fun _ _ => 1)
        ([(0, 0), (1, 0), (2, 0), (3, 0), (4, 0), (5, 0), (6, 0), (7, 0), (8, 0), (9, 0), (10, 0), (11, 0), (12, 0), (13, 0), (14, 0), (15, 0), (16, 0), (17, 0), (18, 0), (19, 0), (20, 0), (21, 0), (22, 0), (23, 0), (24, 0), (25, 0), (26, 0), (27, 0), (28, 0), (29, 0), (30, 0)] : List Point) (30 + 1) 10 from rfl]
    rw [turnScan]
    rw [if_pos (by decide)]
    dsimp only
    rw [show (3 : ℚ) *
        (([(0, 0), (1, 0), (2, 0), (3, 0), (4, 0), (5, 0), (6, 0), (7, 0), (8, 0), (9, 0), (10, 0), (11, 0), (12, 0), (13, 0), (14, 0), (15, 0), (16, 0), (17, 0), (18, 0), (19, 0), (20, 0), (21, 0), (22, 0), (23, 0), (24, 0), (25, 0), (26, 0), (27, 0), (28, 0), (29, 0), (30, 0)] : List Point).getD 30 (0, 0)).1 = 90 from by
      show (3 : ℚ) * 30 = 90; norm_num]
    rw [show (3 : ℚ) *
        (([(0, 0), (1, 0), (2, 0), (3, 0), (4, 0), (5, 0), (6, 0), (7, 0), (8, 0), (9, 0), (10, 0), (11, 0), (12, 0), (13, 0), (14, 0), (15, 0), (16, 0), (17, 0), (18, 0), (19, 0), (20, 0), (21, 0), (22, 0), (23, 0), (24, 0), (25, 0), (26, 0), (27, 0), (28, 0), (29, 0), (30, 0)] : List Point).getD 10 (0, 0)).1 = 30 from by
      show (3 : ℚ) * 10 = 30; norm_num]
    rw [hdelta]
    rw [if_pos (show (40 : ℚ) ≤ qabs 60 by norm_num [qabs])]
    rw [show mkTurn (fun _ _ => (1 : ℚ))
        ([(0, 0), (1, 0), (2, 0), (3, 0), (4, 0), (5, 0), (6, 0), (7, 0), (8, 0), (9, 0), (10, 0), (11, 0), (12, 0), (13, 0), (14, 0), (15, 0), (16, 0), (17, 0), (18, 0), (19, 0), (20, 0), (21, 0), (22, 0), (23, 0), (24, 0), (25, 0), (26, 0), (27, 0), (28, 0), (29, 0), (30, 0)] : List Point) 10 30 90 60 =
      (⟨10, 10, 60, 30, 90, .slight, .right⟩ : TurnPoint) from by
      unfold mkTurn
      rw [hc10]
      norm_num [qabs]]
    exact List.mem_cons_self _ _
  refine ⟨hmem, ?_⟩
  have h := (turn_classification (fun _ b => 3 * b.1) (fun _ _ => 1)
    ([(0, 0), (1, 0), (2, 0), (3, 0), (4, 0), (5, 0), (6, 0), (7, 0), (8, 0), (9, 0), (10, 0), (11, 0), (12, 0), (13, 0), (14, 0), (15, 0), (16, 0), (17, 0), (18, 0), (19, 0), (20, 0), (21, 0), (22, 0), (23, 0), (24, 0), (25, 0), (26, 0), (27, 0), (28, 0), (29, 0), (30, 0)] : List Point)).1 _ hmem
  simpa [hdelta, hc10] using h

/-! ## C2: the projection minimizes the planar distance -/

theorem flrAux_eq_foldl (hav : Point → Point → ℚ) (loc : Point) :
    ∀ (pts : List Point) (total : ℚ) (best : Option (ℚ × Point × ℚ)),
      flrAux hav loc pts total best =
        (candList hav loc pts total).foldl flrStep best := by
  intro pts
  induction pts with
  | nil => intro total best; rfl
  | cons p tail ih =>
      cases tail with
      | nil => intro total best; rfl
      | cons q rest =>
          intro total best
          simp only [flrAux, candList, List.foldl_cons]
          rw [ih]
          rfl

theorem candList_length (hav : Point → Point → ℚ) (loc : Point) :
    ∀ (pts : List Point) (total : ℚ),
      (candList hav loc pts total).length = (segPairs pts).length := by
  intro pts
  induction pts with
  | nil => intro total; rfl
  | cons p tail ih =>
      cases tail with
      | nil => intro total; rfl
      | cons q rest =>
          intro total
          simp only [candList, segPairs, List.zip_cons_cons, List.length_cons]
          have := ih (total + hav p q)
          simp only [segPairs] at this
          simp [this]

theorem candList_get (hav : Point → Point → ℚ) (loc : Point) :
    ∀ (pts : List Point) (total : ℚ) (i : ℕ)
      (hi : i < (segPairs pts).length),
      (candList hav loc pts total).get
          ⟨i, by rw [candList_length hav loc pts total]; exact hi⟩ =
        (segSqDist loc ((segPairs pts).get ⟨i, hi⟩),
          closestOnSeg ((segPairs pts).get ⟨i, hi⟩).1
            ((segPairs pts).get ⟨i, hi⟩).2 loc,
          total + cumLen hav pts i +
            projParam ((segPairs pts).get ⟨i, hi⟩).1
              ((segPairs pts).get ⟨i, hi⟩).2 loc *
              hav ((segPairs pts).get ⟨i, hi⟩).1
                ((segPairs pts).get ⟨i, hi⟩).2) := by
  intro pts
  induction pts with
  | nil => intro total i hi; exact absurd hi (by simp [segPairs])
  | cons p tail ih =>
      cases tail with
      | nil => intro total i hi; exact absurd hi (by simp [segPairs])
      | cons q rest =>
          intro total i hi
          match i with
          | 0 =>
              simp [candList, segPairs, segSqDist, cumLen]
          | i' + 1 =>
              have hi' : i' < (segPairs (q :: rest)).length := by
                have h0 := hi
                simp only [segPairs, List.tail_cons, List.zip_cons_cons,
                  List.length_cons] at h0 ⊢
                omega
              show (candList hav loc (q :: rest) (total + hav p q)).get
                  ⟨i', by
                    rw [candList_length hav loc (q :: rest) (total + hav p q)]
                    exact hi'⟩ =
                (segSqDist loc ((segPairs (q :: rest)).get ⟨i', hi'⟩),
                  closestOnSeg ((segPairs (q :: rest)).get ⟨i', hi'⟩).1
                    ((segPairs (q :: rest)).get ⟨i', hi'⟩).2 loc,
                  total + (hav p q + cumLen hav (q :: rest) i') +
                    projParam ((segPairs (q :: rest)).get ⟨i', hi'⟩).1
                      ((segPairs (q :: rest)).get ⟨i', hi'⟩).2 loc *
                      hav ((segPairs (q :: rest)).get ⟨i', hi'⟩).1
                        ((segPairs (q :: rest)).get ⟨i', hi'⟩).2)
              rw [ih (total + hav p q) i' hi']
              have harith : total + hav p q + cumLen hav (q :: rest) i' =
                  total + (hav p q + cumLen hav (q :: rest) i') := by ring
              rw [harith]

theorem foldl_flrStep_some :
    ∀ (l : List (ℚ × Point × ℚ)) (b : ℚ × Point × ℚ),
      ∃ r, l.foldl flrStep (some b) = some r ∧
        ((r = b ∧ ∀ c ∈ l, b.1 ≤ c.1) ∨
          (∃ i, ∃ hi : i < l.length, r = l.get ⟨i, hi⟩ ∧ r.1 < b.1 ∧
            (∀ j, ∀ hj : j < l.length, r.1 ≤ (l.get ⟨j, hj⟩).1) ∧
            (∀ j, ∀ hj : j < i, r.1 < (l.get ⟨j, lt_trans hj hi⟩).1))) := by
  intro l
  induction l with
  | nil => intro b; exact ⟨b, rfl, Or.inl ⟨rfl, by simp⟩⟩
  | cons c l' ih =>
      intro b
      have hfold : ∀ b0 : ℚ × Point × ℚ,
          (c :: l').foldl flrStep (some b0) =
            l'.foldl flrStep (flrStep (some b0) c) := fun b0 => rfl
      by_cases hlt : c.1 < b.1
      · obtain ⟨r, hr, hcase⟩ := ih c
        have hr' : (c :: l').foldl flrStep (some b) = some r := by
          rw [hfold b]
          simpa [flrStep, hlt] using hr
        refine ⟨r, hr', Or.inr ?_⟩
        rcases hcase with ⟨rfl, hall⟩ | ⟨i', hi', hre, hrlt, hmin, hstrict⟩
        · refine ⟨0, by simp, rfl, hlt, ?_, ?_⟩
          · intro j hj
            match j, hj with
            | 0, _ => exact le_refl _
            | j' + 1, hj => exact hall _ (l'.get_mem ..)
          · intro j hj
            exact absurd hj (Nat.not_lt_zero j)
        · subst hre
          refine ⟨i' + 1, by simpa using Nat.succ_lt_succ hi', rfl,
            lt_trans hrlt hlt, ?_, ?_⟩
          · intro j hj
            match j, hj with
            | 0, _ => exact le_of_lt hrlt
            | j' + 1, hj =>
                exact hmin j' (by simp only [List.length_cons] at hj; omega)
          · intro j hj
            match j, hj with
            | 0, _ => exact hrlt
            | j' + 1, hj =>
                exact hstrict j' (by omega)
      · obtain ⟨r, hr, hcase⟩ := ih b
        have hr' : (c :: l').foldl flrStep (some b) = some r := by
          rw [hfold b]
          simpa [flrStep, hlt] using hr
        refine ⟨r, hr', ?_⟩
        rcases hcase with ⟨rfl, hall⟩ | ⟨i', hi', hre, hrlt, hmin, hstrict⟩
        · refine Or.inl ⟨rfl, ?_⟩
          intro x hx
          rcases List.mem_cons.mp hx with rfl | hx
          · exact le_of_not_lt hlt
          · exact hall x hx
        · subst hre
          refine Or.inr ⟨i' + 1, by simpa using Nat.succ_lt_succ hi', rfl,
            hrlt, ?_, ?_⟩
          · intro j hj
            match j, hj with
            | 0, _ => exact le_trans (le_of_lt hrlt) (le_of_not_lt hlt)
            | j' + 1, hj =>
                exact hmin j' (by simp only [List.length_cons] at hj; omega)
          · intro j hj
            match j, hj with
            | 0, _ => exact lt_of_lt_of_le hrlt (le_of_not_lt hlt)
            | j' + 1, hj =>
                exact hstrict j' (by omega)

theorem foldl_flrStep_none (l : List (ℚ × Point × ℚ)) (hne : l ≠ []) :
    ∃ i, ∃ hi : i < l.length, l.foldl flrStep none = some (l.get ⟨i, hi⟩) ∧
      (∀ j, ∀ hj : j < l.length,
        (l.get ⟨i, hi⟩).1 ≤ (l.get ⟨j, hj⟩).1) ∧
      (∀ j, ∀ hj : j < i, (l.get ⟨i, hi⟩).1 < (l.get ⟨j, lt_trans hj hi⟩).1) := by
  match l, hne with
  | c :: l', _ =>
      have hstep : (c :: l').foldl flrStep none = l'.foldl flrStep (some c) :=
        rfl
      obtain ⟨r, hr, hcase⟩ := foldl_flrStep_some l' c
      rcases hcase with ⟨rfl, hall⟩ | ⟨i', hi', hre, hrlt, hmin, hstrict⟩
      · refine ⟨0, by simp, by rw [hstep]; exact hr, ?_, ?_⟩
        · intro j hj
          match j, hj with
          | 0, _ => exact le_refl _
          | j' + 1, hj => exact hall _ (l'.get_mem ..)
        · intro j hj
          exact absurd hj (Nat.not_lt_zero j)
      · subst hre
        refine ⟨i' + 1, by simpa using Nat.succ_lt_succ hi',
          by rw [hstep]; exact hr, ?_, ?_⟩
        · intro j hj
          match j, hj with
          | 0, _ => exact le_of_lt hrlt
          | j' + 1, hj =>
              exact hmin j' (by simp only [List.length_cons] at hj; omega)
        · intro j hj
          match j, hj with
          | 0, _ => exact hrlt
          | j' + 1, hj => exact hstrict j' (by omega)

/-- C2: on a route polyline with at least 2 vertices, the projection
iterates over every consecutive-vertex segment and returns the triple of
the segment minimizing the squared planar distance from the query point
(equivalently, the planar distance: both are nonnegative), ties broken by
the smaller segment index; its nearest point is the clamped planar
projection onto that segment, its distance from start is the cumulative
haversine length of the preceding segments plus the clamped normalized
projection parameter times the segment's haversine length, its lateral
deviation (carried squared) is the minimal squared planar distance times
111000 squared, and no error entry is present. -/
theorem projection_minimizes (hav : Point → Point → ℚ) (coords : List Point)
    (loc : Point) (h2 : 2 ≤ coords.length) :
    ∃ i, ∃ hi : i < (segPairs coords).length,
      find_location_on_route hav coords loc =
        ⟨closestOnSeg ((segPairs coords).get ⟨i, hi⟩).1
            ((segPairs coords).get ⟨i, hi⟩).2 loc,
          cumLen hav coords i +
            projParam ((segPairs coords).get ⟨i, hi⟩).1
              ((segPairs coords).get ⟨i, hi⟩).2 loc *
              hav ((segPairs coords).get ⟨i, hi⟩).1
                ((segPairs coords).get ⟨i, hi⟩).2,
          segSqDist loc ((segPairs coords).get ⟨i, hi⟩) * 111000 ^ 2,
          false⟩ ∧
      (∀ j, ∀ hj : j < (segPairs coords).length,
        segSqDist loc ((segPairs coords).get ⟨i, hi⟩) ≤
          segSqDist loc ((segPairs coords).get ⟨j, hj⟩)) ∧
      (∀ j, ∀ hj : j < i,
        segSqDist loc ((segPairs coords).get ⟨i, hi⟩) <
          segSqDist loc ((segPairs coords).get ⟨j, lt_trans hj hi⟩)) := by
  have hlen : 0 < (segPairs coords).length := by
    match coords, h2 with
    | p :: q :: rest, _ => simp [segPairs]
  have hcne : candList hav loc coords 0 ≠ [] := by
    intro h
    have := candList_length hav loc coords 0
    rw [h] at this
    simp only [List.length_nil] at this
    omega
  obtain ⟨i, hi, hfold, hmin, hstrict⟩ := foldl_flrStep_none _ hcne
  have hi' : i < (segPairs coords).length := by
    rw [← candList_length hav loc coords 0]
    exact hi
  have hget := candList_get hav loc coords 0 i hi'
  refine ⟨i, hi', ?_, ?_, ?_⟩
  · unfold find_location_on_route
    rw [flrAux_eq_foldl, hfold]
    have : (candList hav loc coords 0).get ⟨i, hi⟩ =
        (candList hav loc coords 0).get
          ⟨i, by rw [candList_length hav loc coords 0]; exact hi'⟩ := rfl
    rw [this, hget]
    simp
  · intro j hj
    have hj' : j < (candList hav loc coords 0).length := by
      rw [candList_length hav loc coords 0]
      exact hj
    have h1 := hmin j hj'
    have hgj := candList_get hav loc coords 0 j hj
    have : (candList hav loc coords 0).get ⟨j, hj'⟩ =
        (candList hav loc coords 0).get
          ⟨j, by rw [candList_length hav loc coords 0]; exact hj⟩ := rfl
    rw [this, hgj] at h1
    have hgi : (candList hav loc coords 0).get ⟨i, hi⟩ =
        (candList hav loc coords 0).get
          ⟨i, by rw [candList_length hav loc coords 0]; exact hi'⟩ := rfl
    rw [hgi, hget] at h1
    exact h1
  · intro j hj
    have hj' : j < (candList hav loc coords 0).length := by
      rw [candList_length hav loc coords 0]
      exact lt_trans hj hi'
    have h1 := hstrict j (by omega)
    have hgj := candList_get hav loc coords 0 j (lt_trans hj hi')
    have heqj : (candList hav loc coords 0).get ⟨j, lt_trans (by omega) hi⟩ =
        (candList hav loc coords 0).get
          ⟨j, by rw [candList_length hav loc coords 0]
                 exact lt_trans hj hi'⟩ := rfl
    rw [heqj, hgj] at h1
    have hgi : (candList hav loc coords 0).get ⟨i, hi⟩ =
        (candList hav loc coords 0).get
          ⟨i, by rw [candList_length hav loc coords 0]; exact hi'⟩ := rfl
    rw [hgi, hget] at h1
    exact h1

theorem projection_minimizes_witness :
    2 ≤ ([((0 : ℚ), (0 : ℚ)), (0, 2)] : List Point).length ∧
    (∃ i, ∃ hi : i < (segPairs [((0 : ℚ), (0 : ℚ)), (0, 2)]).length,
      find_location_on_route (fun _ _ => 5) [((0 : ℚ), (0 : ℚ)), (0, 2)]
          (1, 1) =
        ⟨closestOnSeg ((segPairs [((0 : ℚ), (0 : ℚ)), (0, 2)]).get ⟨i, hi⟩).1
            ((segPairs [((0 : ℚ), (0 : ℚ)), (0, 2)]).get ⟨i, hi⟩).2 (1, 1),
          cumLen (fun _ _ => 5) [((0 : ℚ), (0 : ℚ)), (0, 2)] i +
            projParam ((segPairs [((0 : ℚ), (0 : ℚ)), (0, 2)]).get ⟨i, hi⟩).1
              ((segPairs [((0 : ℚ), (0 : ℚ)), (0, 2)]).get ⟨i, hi⟩).2 (1, 1) *
              (fun _ _ => (5 : ℚ))
                ((segPairs [((0 : ℚ), (0 : ℚ)), (0, 2)]).get ⟨i, hi⟩).1
                ((segPairs [((0 : ℚ), (0 : ℚ)), (0, 2)]).get ⟨i, hi⟩).2,
          segSqDist (1, 1) ((segPairs [((0 : ℚ), (0 : ℚ)), (0, 2)]).get
            ⟨i, hi⟩) * 111000 ^ 2,
          false⟩ ∧
      (∀ j, ∀ hj : j < (segPairs [((0 : ℚ), (0 : ℚ)), (0, 2)]).length,
        segSqDist (1, 1) ((segPairs [((0 : ℚ), (0 : ℚ)), (0, 2)]).get
            ⟨i, hi⟩) ≤
          segSqDist (1, 1) ((segPairs [((0 : ℚ), (0 : ℚ)), (0, 2)]).get
            ⟨j, hj⟩)) ∧
      (∀ j, ∀ hj : j < i,
        segSqDist (1, 1) ((segPairs [((0 : ℚ), (0 : ℚ)), (0, 2)]).get
            ⟨i, hi⟩) <
          segSqDist (1, 1) ((segPairs [((0 : ℚ), (0 : ℚ)), (0, 2)]).get
            ⟨j, lt_trans hj hi⟩))) :=
  ⟨by decide,
    projection_minimizes (fun _ _ => 5) [((0 : ℚ), (0 : ℚ)), (0, 2)] (1, 1)
      (by decide)⟩

/-! ## C3 and C4: the stitcher

The running predicate on oriented segments is that the underlying way is
a route way (no self-loop); every phase of the stitcher preserves it, and
the identifier multiset of the segments is preserved by consolidation and
the global flip. -/

theorem segToDict_id (s : RouteSegment) : (segToDict s).id = s.way.id := by
  unfold segToDict
  split <;> rfl

theorem segToDict_ne (s : RouteSegment)
    (h : s.way.startNode ≠ s.way.endNode) :
    (segToDict s).startNode ≠ (segToDict s).endNode := by
  unfold segToDict
  split
  · exact fun he => h he.symm
  · exact h

theorem wayToOWay_flag (w : Way) : (wayToOWay w).revFlag = false :=
  rfl

theorem flipSeg_way (s : RouteSegment) : (flipSeg s).way = s.way :=
  rfl

theorem flipOWay_id (w : OWay) : (flipOWay w).id = w.id :=
  rfl

theorem seedSegment_way (nc : NodeConn) (used : List ℕ) (w : Way)
    (atEp : Bool) : (seedSegment nc used w atEp).way = w := by
  unfold seedSegment
  split <;> rfl

theorem head?_mem {l : List α} {a : α} (h : l.head? = some a) : a ∈ l := by
  cases l with
  | nil => exact absurd h (by simp)
  | cons x xs =>
      rw [List.head?_cons, Option.some.injEq] at h
      rw [← h]
      exact List.mem_cons_self x xs

theorem wayLookup_spec (ways : List Way) (wid : ℕ) (w : Way)
    (h : wayLookup ways wid = some w) : w ∈ ways ∧ w.id = wid := by
  unfold wayLookup at h
  refine ⟨List.mem_reverse.mp (List.mem_of_find?_eq_some h), ?_⟩
  have := List.find?_some h
  simpa using this

theorem unusedAt_spec (nc : NodeConn) (used : List ℕ) (cur wid : ℕ)
    (h : wid ∈ unusedAt nc used cur) : wid ∉ used := by
  unfold unusedAt at h
  have := (List.mem_filter.mp h).2
  simpa using this

theorem origCands_spec (ways : List Way) (nc : NodeConn) (used : List ℕ)
    (cur : ℕ) (s : RouteSegment) (h : s ∈ origCands ways nc used cur) :
    s.way ∈ ways ∧ s.way.id ∉ used := by
  unfold origCands at h
  obtain ⟨wid, hwid, hf⟩ := List.mem_filterMap.mp h
  obtain ⟨w, hw, hif⟩ := Option.bind_eq_some.mp hf
  obtain ⟨hmem, hid⟩ := wayLookup_spec ways wid w hw
  have hnz := unusedAt_spec nc used cur wid hwid
  by_cases hc : (w.startNode == cur) = true
  · rw [if_pos hc, Option.some.injEq] at hif
    rw [← hif]
    exact ⟨hmem, by rw [hid]; exact hnz⟩
  · rw [if_neg hc] at hif
    exact absurd hif (by simp)

theorem revCands_spec (ways : List Way) (nc : NodeConn) (used : List ℕ)
    (cur : ℕ) (s : RouteSegment) (h : s ∈ revCands ways nc used cur) :
    s.way ∈ ways ∧ s.way.id ∉ used := by
  unfold revCands at h
  obtain ⟨wid, hwid, hf⟩ := List.mem_filterMap.mp h
  obtain ⟨w, hw, hif⟩ := Option.bind_eq_some.mp hf
  obtain ⟨hmem, hid⟩ := wayLookup_spec ways wid w hw
  have hnz := unusedAt_spec nc used cur wid hwid
  by_cases hc : (w.startNode == cur) = true
  · rw [if_pos hc] at hif
    exact absurd hif (by simp)
  · rw [if_neg hc] at hif
    by_cases hc2 : (w.endNode == cur) = true
    · rw [if_pos hc2, Option.some.injEq] at hif
      rw [← hif]
      exact ⟨hmem, by rw [hid]; exact hnz⟩
    · rw [if_neg hc2] at hif
      exact absurd hif (by simp)

theorem bothCands_spec (ways : List Way) (nc : NodeConn) (used : List ℕ)
    (cur : ℕ) (s : RouteSegment) (h : s ∈ bothCands ways nc used cur) :
    s.way ∈ ways ∧ s.way.id ∉ used := by
  unfold bothCands at h
  obtain ⟨wid, hwid, hf⟩ := List.mem_filterMap.mp h
  obtain ⟨w, hw, hif⟩ := Option.bind_eq_some.mp hf
  obtain ⟨hmem, hid⟩ := wayLookup_spec ways wid w hw
  have hnz := unusedAt_spec nc used cur wid hwid
  by_cases hc : (w.startNode == cur) = true
  · rw [if_pos hc, Option.some.injEq] at hif
    rw [← hif]
    exact ⟨hmem, by rw [hid]; exact hnz⟩
  · rw [if_neg hc] at hif
    by_cases hc2 : (w.endNode == cur) = true
    · rw [if_pos hc2, Option.some.injEq] at hif
      rw [← hif]
      exact ⟨hmem, by rw [hid]; exact hnz⟩
    · rw [if_neg hc2] at hif
      exact absurd hif (by simp)

theorem selectNextMain_spec (ways : List Way) (nc : NodeConn)
    (used : List ℕ) (cur : ℕ) (s : RouteSegment)
    (h : selectNextMain ways nc used cur = some s) :
    s.way ∈ ways ∧ s.way.id ∉ used := by
  unfold selectNextMain at h
  dsimp only at h
  split_ifs at h
  · exact origCands_spec ways nc used cur s (head?_mem h)
  · exact revCands_spec ways nc used cur s (head?_mem h)
  · exact origCands_spec ways nc used cur s (head?_mem h)

theorem selectNextResid_spec (ways : List Way) (nc : NodeConn)
    (used : List ℕ) (cur : ℕ) (s : RouteSegment)
    (h : selectNextResid ways nc used cur = some s) :
    s.way ∈ ways ∧ s.way.id ∉ used :=
  bothCands_spec ways nc used cur s (head?_mem h)

theorem pickSeed_spec (ways : List Way) (nc : NodeConn) (eps : List ℕ)
    (used : List ℕ) (w : Way) (b : Bool)
    (h : pickSeed ways nc eps used = some (w, b)) :
    w ∈ ways ∧ w.id ∉ used := by
  unfold pickSeed at h
  split at h
  case _ r heq =>
      rw [Option.some.injEq] at h
      subst h
      obtain ⟨node, hnode, hr⟩ := List.exists_of_findSome?_eq_some heq
      obtain ⟨wid, hwid, hr2⟩ := List.exists_of_findSome?_eq_some hr
      by_cases hu : wid ∈ used
      · rw [if_pos hu] at hr2
        exact absurd hr2 (by simp)
      · rw [if_neg hu] at hr2
        obtain ⟨v, hv, hvb⟩ := Option.map_eq_some'.mp hr2
        obtain ⟨hm, hid⟩ := wayLookup_spec ways wid v hv
        have hvw : v = w := congrArg Prod.fst hvb
        subst hvw
        rw [hid]
        exact ⟨hm, hu⟩
  case _ heq =>
      obtain ⟨v, hv, hvb⟩ := Option.map_eq_some'.mp h
      have hvw : v = w := congrArg Prod.fst hvb
      subst hvw
      have hvp := List.find?_some hv
      refine ⟨List.mem_of_find?_eq_some hv, ?_⟩
      simpa using hvp

/-- Soundness of the greedy walk: every emitted segment's way comes from
the route ways, the emitted way ids are pairwise distinct, and none of
them was already used. -/
theorem walkWith_sound (ways : List Way)
    (select : List ℕ → ℕ → Option RouteSegment)
    (hsel : ∀ used cur s, select used cur = some s →
      s.way ∈ ways ∧ s.way.id ∉ used) :
    ∀ (fuel : ℕ) (used : List ℕ) (cur : ℕ),
      (∀ s ∈ walkWith select fuel used cur, s.way ∈ ways) ∧
      ((walkWith select fuel used cur).map (fun s => s.way.id)).Nodup ∧
      (∀ x ∈ (walkWith select fuel used cur).map (fun s => s.way.id),
        x ∉ used) := by
  intro fuel
  induction fuel with
  | zero =>
      intro used cur
      exact ⟨by simp [walkWith], by simp [walkWith], by simp [walkWith]⟩
  | succ f ih =>
      intro used cur
      rw [walkWith]
      cases hsome : select used cur with
      | none => exact ⟨by simp, by simp, by simp⟩
      | some seg =>
          obtain ⟨hways, hfresh⟩ := hsel used cur seg hsome
          obtain ⟨ih1, ih2, ih3⟩ := ih (seg.way.id :: used) (segEnd seg)
          refine ⟨?_, ?_, ?_⟩
          · intro s hs
            rcases List.mem_cons.mp hs with rfl | hs
            · exact hways
            · exact ih1 s hs
          · rw [List.map_cons, List.nodup_cons]
            refine ⟨fun hmem => ?_, ih2⟩
            exact ih3 _ hmem (List.mem_cons_self _ _)
          · rw [List.map_cons]
            intro x hx
            rcases List.mem_cons.mp hx with rfl | hx
            · exact hfresh
            · intro hxu
              exact ih3 x hx (List.mem_cons_of_mem _ hxu)

/-- Every segment of every residual chain comes from the route ways. -/
theorem residualChains_ways (ways : List Way) (nc : NodeConn)
    (eps : List ℕ) :
    ∀ (fuel : ℕ) (used : List ℕ),
      ∀ ch ∈ residualChains ways nc eps fuel used, ∀ s ∈ ch,
        s.way ∈ ways := by
  intro fuel
  induction fuel with
  | zero => intro used ch hch; exact absurd hch (by simp [residualChains])
  | succ f ih =>
      intro used ch hch
      rw [residualChains] at hch
      split_ifs at hch with hlen
      · split at hch
        · exact absurd hch (by simp)
        · case _ w atEp heq =>
            rcases List.mem_cons.mp hch with rfl | hch
            · intro s hs
              rcases List.mem_cons.mp hs with rfl | hs
              · rw [seedSegment_way]
                exact (pickSeed_spec ways nc eps used w atEp heq).1
              · exact (walkWith_sound ways (selectNextResid ways nc)
                  (selectNextResid_spec ways nc) ways.length _ _).1 s hs
            · exact ih _ ch hch
      · exact absurd hch (by simp)

/-- Completeness of the residual loop: starting from any consistent used
set with enough fuel, the residual chains consume exactly the remaining
route ways; together with the used set they are a permutation of all
route way ids.  Requires pairwise distinct route way ids. -/
theorem residualChains_cover (ways : List Way) (nc : NodeConn)
    (eps : List ℕ) (hnd : (ways.map (fun w => w.id)).Nodup) :
    ∀ (fuel : ℕ) (used : List ℕ), used.Nodup →
      (∀ x ∈ used, x ∈ ways.map (fun w => w.id)) →
      ways.length ≤ fuel + used.length →
      (((residualChains ways nc eps fuel used).flatten.map
        (fun s => s.way.id)) ++ used).Perm (ways.map (fun w => w.id)) := by
  have husedperm : ∀ (used : List ℕ), used.Nodup →
      (∀ x ∈ used, x ∈ ways.map (fun w => w.id)) →
      ways.length ≤ used.length →
      used.Perm (ways.map (fun w => w.id)) := by
    intro used hnodup hsub hlen
    refine (hnodup.subperm (fun x hx => hsub x hx)).perm_of_length_le ?_
    simpa using hlen
  intro fuel
  induction fuel with
  | zero =>
      intro used hnodup hsub hlen
      rw [residualChains]
      simpa using husedperm used hnodup hsub (by omega)
  | succ f ih =>
      intro used hnodup hsub hlen
      rw [residualChains]
      split_ifs with hcount
      · cases hps : pickSeed ways nc eps used with
        | none =>
            exfalso
            have hfb : ways.find? (fun w => decide (w.id ∉ used)) = none := by
              unfold pickSeed at hps
              split at hps
              · exact absurd hps (by simp)
              · rcases hmap : ways.find? (fun w => decide (w.id ∉ used)) with
                  _ | v
                · exact hmap
                · rw [hmap] at hps
                  exact absurd hps (by simp)
            have hallused : ∀ x ∈ ways.map (fun w => w.id), x ∈ used := by
              intro x hx
              obtain ⟨w, hw, rfl⟩ := List.mem_map.mp hx
              have := List.find?_eq_none.mp hfb w hw
              simpa using this
            have := (hnd.subperm hallused).length_le
            simp only [List.length_map] at this
            omega
        | some wb =>
            obtain ⟨w, atEp⟩ := wb
            obtain ⟨hwmem, hwfresh⟩ := pickSeed_spec ways nc eps used w atEp hps
            obtain ⟨hw1, hw2, hw3⟩ := walkWith_sound ways
              (selectNextResid ways nc) (selectNextResid_spec ways nc)
              ways.length ((seedSegment nc used w atEp).way.id :: used)
              (segEnd (seedSegment nc used w atEp))
            set rest := walkWith (selectNextResid ways nc) ways.length
              ((seedSegment nc used w atEp).way.id :: used)
              (segEnd (seedSegment nc used w atEp)) with hrest
            have hsw : (seedSegment nc used w atEp).way = w :=
              seedSegment_way nc used w atEp
            have hchainIds :
            ((seedSegment nc used w atEp :: rest).map (fun s => s.way.id)) =
              w.id :: rest.map (fun s => s.way.id) := by
              rw [List.map_cons, hsw]
            have hchainNodup :
                ((seedSegment nc used w atEp :: rest).map
                  (fun s => s.way.id)).Nodup := by
              rw [hchainIds, List.nodup_cons]
              refine ⟨fun hmem => ?_, hw2⟩
              have := hw3 _ hmem
              rw [hsw] at this
              exact this (List.mem_cons_self _ _)
            have hchainSub : ∀ x ∈ (seedSegment nc used w atEp :: rest).map
                (fun s => s.way.id), x ∈ ways.map (fun v => v.id) := by
              rw [hchainIds]
              intro x hx
              rcases List.mem_cons.mp hx with rfl | hx
              · exact List.mem_map.mpr ⟨w, hwmem, rfl⟩
              · obtain ⟨s, hsmem, rfl⟩ := List.mem_map.mp hx
                exact List.mem_map.mpr ⟨s.way, hw1 s hsmem, rfl⟩
            have hchainFresh : ∀ x ∈ (seedSegment nc used w atEp :: rest).map
                (fun s => s.way.id), x ∉ used := by
              rw [hchainIds]
              intro x hx
              rcases List.mem_cons.mp hx with rfl | hx
              · exact hwfresh
              · intro hxu
                have := hw3 x hx
                rw [hsw] at this
                exact this (List.mem_cons_of_mem _ hxu)
            have hused' : (((seedSegment nc used w atEp :: rest).map
                (fun s => s.way.id)) ++ used).Nodup := by
              refine List.Nodup.append hchainNodup hnodup ?_
              intro x hx hxu
              exact hchainFresh x hx hxu
            have hsub' : ∀ x ∈ ((seedSegment nc used w atEp :: rest).map
                (fun s => s.way.id)) ++ used, x ∈ ways.map (fun v => v.id) := by
              intro x hx
              rcases List.mem_append.mp hx with hx | hx
              · exact hchainSub x hx
              · exact hsub x hx
            have hlen' : ways.length ≤ f +
                (((seedSegment nc used w atEp :: rest).map
                  (fun s => s.way.id)) ++ used).length := by
              rw [List.length_append, List.map_cons, List.length_cons]
              omega
            have hIH := ih (((seedSegment nc used w atEp :: rest).map
              (fun s => s.way.id)) ++ used) hused' hsub' hlen'
            rw [List.flatten_cons, List.map_append]
            refine List.Perm.trans
              (List.Perm.append_right used List.perm_append_comm) ?_
            rw [List.append_assoc]
            exact hIH
      · simpa [residualChains] using husedperm used hnodup hsub (by omega)

/-- The main walk followed by the residual chains consumes each route way
exactly once (way ids, as a multiset). -/
theorem chains_cover (ways : List Way) (nc : NodeConn) (eps : List ℕ)
    (start : ℕ) (hnd : (ways.map (fun w => w.id)).Nodup) :
    (((walkWith (selectNextMain ways nc) ways.length [] start ::
        residualChains ways nc eps ways.length
          ((walkWith (selectNextMain ways nc) ways.length []
            start).map (fun s => s.way.id))).flatten).map
      (fun s => s.way.id)).Perm (ways.map (fun w => w.id)) := by
  obtain ⟨hw1, hw2, _⟩ := walkWith_sound ways (selectNextMain ways nc)
    (selectNextMain_spec ways nc) ways.length [] start
  rw [List.flatten_cons, List.map_append]
  refine List.Perm.trans List.perm_append_comm ?_
  refine residualChains_cover ways nc eps hnd ways.length _ hw2 ?_ (by omega)
  intro x hx
  obtain ⟨s, hs, rfl⟩ := List.mem_map.mp hx
  exact List.mem_map.mpr ⟨s.way, hw1 s hs, rfl⟩

/-- Every segment of every chain built by the chain-building phase has its
way among the route ways. -/
theorem stitchedChains_ways (routeW : List Way) :
    ∀ ch ∈ stitchedChains routeW, ∀ s ∈ ch, s.way ∈ routeW := by
  intro ch hch
  unfold stitchedChains at hch
  rcases List.mem_cons.mp hch with rfl | hch
  · exact (walkWith_sound routeW
      (selectNextMain routeW (buildNodeConnections routeW))
      (selectNextMain_spec routeW (buildNodeConnections routeW))
      routeW.length [] _).1
  · exact residualChains_ways routeW _ _ _ _ ch hch

/-- The chain-building phase covers the route ways exactly once. -/
theorem stitchedChains_cover (routeW : List Way)
    (hnd : (routeW.map (fun w => w.id)).Nodup) :
    (((stitchedChains routeW).flatten).map (fun s => s.way.id)).Perm
      (routeW.map (fun w => w.id)) := by
  unfold stitchedChains
  exact chains_cover routeW _ _ _ hnd

/-- Splicing never invents a segment: every segment of the splice comes
from one of the two chains (possibly orientation-flipped, which keeps the
way). -/
theorem spliceChains_ways {W : List Way} {main c : List RouteSegment}
    (hm : ∀ s ∈ main, s.way ∈ W) (hc : ∀ s ∈ c, s.way ∈ W) :
    ∀ s ∈ spliceChains main c, s.way ∈ W := by
  have hflip : ∀ s ∈ c.reverse.map flipSeg, s.way ∈ W := by
    intro s hs
    obtain ⟨t, ht, rfl⟩ := List.mem_map.mp hs
    rw [flipSeg_way]
    exact hc t (List.mem_reverse.mp ht)
  intro s hs
  unfold spliceChains at hs
  split at hs
  · split_ifs at hs <;>
      rcases List.mem_append.mp hs with h | h <;>
      first
        | exact hm s h
        | exact hc s h
        | exact hflip s h
  · rcases List.mem_append.mp hs with h | h
    · exact hm s h
    · exact hc s h

/-- Splicing two chains is count-preserving on way ids. -/
theorem spliceChains_perm (main c : List RouteSegment) :
    ((spliceChains main c).map (fun s => s.way.id)).Perm
      (main.map (fun s => s.way.id) ++ c.map (fun s => s.way.id)) := by
  have hflip : (c.reverse.map flipSeg).map (fun s => s.way.id) =
      c.reverse.map (fun s => s.way.id) := by
    rw [List.map_map]
    rfl
  unfold spliceChains
  split
  · split_ifs <;> rw [List.map_append]
    · exact List.perm_append_comm
    · rw [hflip]
      exact List.Perm.append_left _
        ((List.reverse_perm c).map (fun s => s.way.id))
    · rw [hflip]
      exact (((List.reverse_perm c).map
        (fun s => s.way.id)).append_right _).trans List.perm_append_comm
  · rw [List.map_append]

/-- Folding splices over a list of chains never invents a segment. -/
theorem foldl_splice_ways {W : List Way} :
    ∀ (chains : List (List RouteSegment)) (acc : List RouteSegment),
      (∀ s ∈ acc, s.way ∈ W) → (∀ ch ∈ chains, ∀ s ∈ ch, s.way ∈ W) →
      ∀ s ∈ chains.foldl spliceChains acc, s.way ∈ W := by
  intro chains
  induction chains with
  | nil => intro acc hacc _; simpa using hacc
  | cons c cs ih =>
      intro acc hacc hch
      rw [List.foldl_cons]
      exact ih _ (spliceChains_ways hacc (hch c (List.mem_cons_self _ _)))
        (fun ch h => hch ch (List.mem_cons_of_mem _ h))

/-- Folding splices over a list of chains is count-preserving on ids. -/
theorem foldl_splice_perm :
    ∀ (chains : List (List RouteSegment)) (acc : List RouteSegment),
      ((chains.foldl spliceChains acc).map (fun s => s.way.id)).Perm
        (acc.map (fun s => s.way.id) ++
          chains.flatten.map (fun s => s.way.id)) := by
  intro chains
  induction chains with
  | nil => intro acc; simp
  | cons c cs ih =>
      intro acc
      rw [List.foldl_cons]
      refine (ih (spliceChains acc c)).trans ?_
      rw [List.flatten_cons, List.map_append, ← List.append_assoc]
      exact List.Perm.append_right _ (spliceChains_perm acc c)

/-- Consolidation never invents a segment. -/
theorem consolidatedChain_ways {W : List Way}
    (chains : List (List RouteSegment))
    (h : ∀ ch ∈ chains, ∀ s ∈ ch, s.way ∈ W) :
    ∀ s ∈ consolidatedChain chains, s.way ∈ W := by
  unfold consolidatedChain
  have hs : ∀ ch ∈ sortKeep (fun a b : List RouteSegment =>
      decide (b.length ≤ a.length)) chains, ∀ s ∈ ch, s.way ∈ W :=
    fun ch hch => h ch ((sortKeep_perm _ chains).mem_iff.mp hch)
  cases hsor : sortKeep (fun a b : List RouteSegment =>
      decide (b.length ≤ a.length)) chains with
  | nil => simp
  | cons a t =>
      rw [hsor] at hs
      dsimp only [List.tail_cons, List.headD_cons]
      exact foldl_splice_ways t a (hs a (List.mem_cons_self _ _))
        (fun ch hch => hs ch (List.mem_cons_of_mem _ hch))

/-- Consolidation is count-preserving on way ids. -/
theorem consolidatedChain_perm (chains : List (List RouteSegment)) :
    ((consolidatedChain chains).map (fun s => s.way.id)).Perm
      (chains.flatten.map (fun s => s.way.id)) := by
  unfold consolidatedChain
  have hperm : (sortKeep (fun a b : List RouteSegment =>
      decide (b.length ≤ a.length)) chains).Perm chains :=
    sortKeep_perm _ chains
  cases hsor : sortKeep (fun a b : List RouteSegment =>
      decide (b.length ≤ a.length)) chains with
  | nil =>
      rw [hsor] at hperm
      rw [← hperm.nil_eq]
      simp
  | cons a t =>
      rw [hsor] at hperm
      dsimp only [List.tail_cons, List.headD_cons]
      refine (foldl_splice_perm t a).trans ?_
      have : ((a :: t).flatten.map (fun s => s.way.id)).Perm
          (chains.flatten.map (fun s => s.way.id)) :=
        (hperm.flatten).map (fun s => s.way.id)
      refine List.Perm.trans ?_ this
      rw [List.flatten_cons, List.map_append]

/-! ## Counting reversed flags -/

theorem reversedCount_append (a b : List OWay) :
    reversedCount (a ++ b) = reversedCount a + reversedCount b := by
  unfold reversedCount
  rw [List.filter_append, List.length_append]

theorem reversedCount_le_length (l : List OWay) :
    reversedCount l ≤ l.length :=
  List.length_filter_le _ l

theorem reversedCount_reverse (l : List OWay) :
    reversedCount l.reverse = reversedCount l := by
  unfold reversedCount
  rw [List.filter_reverse, List.length_reverse]

/-- Toggling every flag complements the reversed count. -/
theorem reversedCount_map_flip (l : List OWay) :
    reversedCount (l.map flipOWay) + reversedCount l = l.length := by
  induction l with
  | nil => rfl
  | cons w t ih =>
      have hf : (flipOWay w).revFlag = !w.revFlag := rfl
      unfold reversedCount at ih ⊢
      rw [List.map_cons, List.filter_cons, List.filter_cons, hf,
        List.length_cons]
      cases hw : w.revFlag <;> simp [hw] <;> omega

/-- Freshly appended loop ways carry no reversed flag. -/
theorem reversedCount_map_wayToOWay (l : List Way) :
    reversedCount (l.map wayToOWay) = 0 := by
  induction l with
  | nil => rfl
  | cons w t ih =>
      unfold reversedCount at ih ⊢
      rw [List.map_cons, List.filter_cons]
      simpa [wayToOWay] using ih

/-- The loop filter is the boolean complement of the route filter. -/
theorem loopWaysOf_eq (raw : List Way) :
    loopWaysOf raw =
      raw.filter (fun w => !(decide (w.startNode ≠ w.endNode))) := by
  unfold loopWaysOf
  congr 1
  funext w
  simp [decide_not]

/-! ## The global orientation heuristic -/

/-- After the global-flip heuristic, at most half of the output ways carry
a reversed flag, provided the chain part has distinct endpoints and the
appended loops have equal endpoints (both hold by construction). -/
theorem globalFlip_balanced (loopW : List Way) (chainD : List OWay)
    (hch : ∀ w ∈ chainD, w.startNode ≠ w.endNode)
    (hlp : ∀ w ∈ loopW, w.startNode = w.endNode) :
    2 * reversedCount (globalFlip loopW (chainD ++ loopW.map wayToOWay)) ≤
      (globalFlip loopW (chainD ++ loopW.map wayToOWay)).length := by
  have hloops0 : reversedCount (loopW.map wayToOWay) = 0 :=
    reversedCount_map_wayToOWay loopW
  unfold globalFlip
  split_ifs with hcond
  · have h1 : chainD.filter (fun w => decide (w.startNode ≠ w.endNode)) =
        chainD :=
      List.filter_eq_self.mpr (fun w hw => by simpa using hch w hw)
    have h2 : (loopW.map wayToOWay).filter
        (fun w => decide (w.startNode ≠ w.endNode)) = [] := by
      rw [List.filter_eq_nil_iff]
      intro w hw
      obtain ⟨v, hv, rfl⟩ := List.mem_map.mp hw
      simpa [wayToOWay] using hlp v hv
    rw [List.filter_append, h1, h2, List.append_nil,
      reversedCount_append, hloops0, List.length_append, List.length_map,
      List.length_reverse]
    have hflip := reversedCount_map_flip chainD.reverse
    rw [reversedCount_reverse, List.length_reverse] at hflip
    have hrc := reversedCount_le_length chainD
    rw [reversedCount_append, hloops0, List.length_append,
      List.length_map] at hcond
    omega
  · omega

/-- The global-flip heuristic is count-preserving on way ids (under the
same by-construction endpoint hypotheses). -/
theorem globalFlip_ids (loopW : List Way) (chainD : List OWay)
    (hch : ∀ w ∈ chainD, w.startNode ≠ w.endNode)
    (hlp : ∀ w ∈ loopW, w.startNode = w.endNode) :
    ((globalFlip loopW (chainD ++ loopW.map wayToOWay)).map
      (fun w => w.id)).Perm
      ((chainD ++ loopW.map wayToOWay).map (fun w => w.id)) := by
  unfold globalFlip
  split_ifs with hcond
  · have h1 : chainD.filter (fun w => decide (w.startNode ≠ w.endNode)) =
        chainD :=
      List.filter_eq_self.mpr (fun w hw => by simpa using hch w hw)
    have h2 : (loopW.map wayToOWay).filter
        (fun w => decide (w.startNode ≠ w.endNode)) = [] := by
      rw [List.filter_eq_nil_iff]
      intro w hw
      obtain ⟨v, hv, rfl⟩ := List.mem_map.mp hw
      simpa [wayToOWay] using hlp v hv
    rw [List.filter_append, h1, h2, List.append_nil,
      List.map_append, List.map_append]
    refine List.Perm.append ?_ (List.Perm.refl _)
    rw [List.map_map]
    exact (List.reverse_perm chainD).map (fun w => w.id)
  · exact List.Perm.refl _

/-- C3: Orientation minimality.  For every input way set, after the
stitcher's global orientation heuristic (which reverses the entire
non-loop chain and toggles every segment's orientation flag exactly when
the count of orientation-flipped segments exceeds half the chain length),
the number of segments carrying a set reversed flag in the final output of
arrange_ways_bidirectionally is at most half the number of output
segments. -/
theorem arrange_orientation_minimality (raw : List Way) :
    2 * reversedCount (arrange_ways_bidirectionally raw) ≤
      (arrange_ways_bidirectionally raw).length := by
  unfold arrange_ways_bidirectionally
  dsimp only
  split_ifs with hraw hroute
  · simp [reversedCount]
  · rw [reversedCount_map_wayToOWay]
    omega
  · refine globalFlip_balanced (loopWaysOf raw)
      ((consolidatedChain (stitchedChains (routeWaysOf raw))).map segToDict)
      ?_ ?_
    · intro w hw
      obtain ⟨s, hs, rfl⟩ := List.mem_map.mp hw
      refine segToDict_ne s ?_
      have hmem : s.way ∈ routeWaysOf raw :=
        consolidatedChain_ways _ (stitchedChains_ways (routeWaysOf raw)) s hs
      have hmem2 := List.of_mem_filter hmem
      exact of_decide_eq_true hmem2
    · intro w hw
      have h := List.of_mem_filter hw
      exact of_decide_eq_true h

/-- C4: Stitcher coverage.  For every input list of raw ways with
pairwise distinct way ids, every input way appears exactly once in the
output of arrange_ways_bidirectionally: the multiset of output way ids
equals the multiset of input way ids, so no way is dropped and none is
duplicated by the greedy walk, residual chain collection, chain
consolidation, or loop append phases. -/
theorem arrange_coverage (raw : List Way)
    (hnd : (raw.map (fun w => w.id)).Nodup) :
    ((arrange_ways_bidirectionally raw).map (fun w => w.id)).Perm
      (raw.map (fun w => w.id)) := by
  unfold arrange_ways_bidirectionally
  dsimp only
  split_ifs with hraw hroute
  · rw [List.isEmpty_iff] at hraw
    rw [hraw]
    exact List.Perm.refl _
  · rw [List.map_map]
    exact List.Perm.refl _
  · have hch : ∀ w ∈ (consolidatedChain
        (stitchedChains (routeWaysOf raw))).map segToDict,
        w.startNode ≠ w.endNode := by
      intro w hw
      obtain ⟨s, hs, rfl⟩ := List.mem_map.mp hw
      refine segToDict_ne s ?_
      have hmem : s.way ∈ routeWaysOf raw :=
        consolidatedChain_ways _ (stitchedChains_ways (routeWaysOf raw)) s hs
      have hmem2 := List.of_mem_filter hmem
      exact of_decide_eq_true hmem2
    have hlp : ∀ w ∈ loopWaysOf raw, w.startNode = w.endNode := by
      intro w hw
      have h := List.of_mem_filter hw
      exact of_decide_eq_true h
    refine (globalFlip_ids (loopWaysOf raw) _ hch hlp).trans ?_
    rw [List.map_append, List.map_map, List.map_map]
    have hndroute : ((routeWaysOf raw).map (fun w => w.id)).Nodup :=
      List.Nodup.sublist
        (List.Sublist.map (fun w => w.id) (List.filter_sublist raw)) hnd
    have hcomp : (consolidatedChain (stitchedChains (routeWaysOf raw))).map
        ((fun w => w.id) ∘ segToDict) =
        (consolidatedChain (stitchedChains (routeWaysOf raw))).map
        (fun s => s.way.id) :=
      List.map_congr_left (fun s _ => segToDict_id s)
    rw [hcomp]
    have hchain : ((consolidatedChain
        (stitchedChains (routeWaysOf raw))).map (fun s => s.way.id)).Perm
        ((routeWaysOf raw).map (fun w => w.id)) :=
      (consolidatedChain_perm _).trans
        (stitchedChains_cover (routeWaysOf raw) hndroute)
    refine (hchain.append (List.Perm.refl
      ((loopWaysOf raw).map ((fun w => w.id) ∘ wayToOWay)))).trans ?_
    have hfl := (List.filter_append_perm
      (fun w => decide (w.startNode ≠ w.endNode)) raw).map (fun w => w.id)
    rw [List.map_append, ← loopWaysOf_eq] at hfl
    exact hfl

/-- Concrete run of the coverage theorem on an explicit relation: the
stitcher permutes the ids of two connectable route ways and one
self-loop. -/
theorem arrange_coverage_witness :
    (rawDemo.map (fun w => w.id)).Nodup ∧
      ((arrange_ways_bidirectionally rawDemo).map (fun w => w.id)).Perm
        (rawDemo.map (fun w => w.id)) :=
  ⟨by decide, arrange_coverage rawDemo (by decide)⟩

end OsmWays
